import Mathlib

/-!
Verification of the CI dispatcher's scheduler core (`src/dispatcher.py`).

The Python source is shallowly embedded: dictionaries become association
lists with unique keys (insertion at the tail, as CPython preserves
insertion order), `collections.deque` becomes a `List` with explicit
rotation, `queue.Queue` becomes a FIFO `List` (head = front),
`time.time()` timestamps become `Nat` arguments supplied by the caller,
and the line-protocol handler becomes a pure function from state and
request parts to state, reply and an optional result file.  A Python
statement that raises an uncaught exception out of `Handler.handle` is
modelled by the `HReply.raised` outcome.  `datetime.isoformat` rendering
of a present timestamp is abstracted as the decimal rendering of the
`Nat` timestamp (always nonempty); latency values use `Int` subtraction
in place of float subtraction.  Neither abstraction is inspected beyond
emptiness / presence of the corresponding file lines.
-/

namespace MiniCI

/-- `dict.get k`: value at the first binding of the key, if any. -/
def lookupA {α β : Type} [DecidableEq α] : List (α × β) → α → Option β
  | [], _ => none
  | (k, v) :: rest, a => if k = a then some v else lookupA rest a

/-- `dict.setdefault k v`: append `(k, v)` iff `k` is absent. -/
def setdefaultA {α β : Type} [DecidableEq α] (l : List (α × β)) (k : α) (v : β) :
    List (α × β) :=
  if (lookupA l k).isSome then l else l ++ [(k, v)]

/-- In-place update of the value at a key (`d[k].field = ...`); no-op when absent. -/
def updateA {α β : Type} [DecidableEq α] : List (α × β) → α → (β → β) → List (α × β)
  | [], _, _ => []
  | p :: rest, k, f => (if p.1 = k then (p.1, f p.2) else p) :: updateA rest k f

/-- `dict.pop(k, None)` / guarded `del d[k]` on unique-key lists. -/
def removeA {α β : Type} [DecidableEq α] : List (α × β) → α → List (α × β)
  | [], _ => []
  | p :: rest, k => if p.1 = k then removeA rest k else p :: removeA rest k

/-- `d[k] = v`: overwrite when present, append when absent. -/
def insertA {α β : Type} [DecidableEq α] (l : List (α × β)) (k : α) (v : β) :
    List (α × β) :=
  if (lookupA l k).isSome then updateA l k (fun _ => v) else l ++ [(k, v)]

/-- `deque.remove`: drop the first occurrence; the `ValueError` on absence is
swallowed by the source (`except ValueError: pass`), hence identity there. -/
def eraseFirst {α : Type} [DecidableEq α] : List α → α → List α
  | [], _ => []
  | x :: xs, a => if x = a then xs else x :: eraseFirst xs a

/-- Runner identifier: the `(host, port)` pair `rid`. -/
abbrev Rid := String × Int

/-- Per-runner record, `STATE.runners[rid] = {"busy": bool, "last_seen": float}`. -/
structure RunnerMeta where
  busy : Bool
  last_seen : Nat
deriving Repr, DecidableEq

/-- Per-revision timeline, `STATE.commits[commit]`; absent dict keys are `none`. -/
structure Timeline where
  queued_at : Option Nat := none
  assigned_at : Option Nat := none
  completed_at : Option Nat := none
  runner : Option Rid := none
deriving Repr, DecidableEq

/-- `RETRY_MAX = 3`: maximal number of automatic retries per commit. -/
def RETRY_MAX : Nat := 3

/-- The shared scheduler state (`class DispatcherState`). -/
structure DispatcherState where
  runners : List (Rid × RunnerMeta)
  runner_ring : List Rid
  pending : List String
  assigned : List (String × Rid)
  tasks : List (String × Nat)
  commits : List (String × Timeline)
deriving Repr, DecidableEq

/-- `DispatcherState.__init__`: everything empty. -/
def initState : DispatcherState := ⟨[], [], [], [], [], []⟩

/-- `DispatcherState.register_runner`. -/
def register_runner (st : DispatcherState) (host : String) (port : Int) (now : Nat) :
    DispatcherState :=
  let rid : Rid := (host, port)
  if (lookupA st.runners rid).isSome then st
  else { st with
    runners := st.runners ++ [(rid, { busy := false, last_seen := now })],
    runner_ring := st.runner_ring ++ [rid] }

/-- `DispatcherState.heartbeat`: update `last_seen` iff the runner is known. -/
def heartbeat (st : DispatcherState) (host : String) (port : Int) (now : Nat) :
    DispatcherState :=
  { st with runners := updateA st.runners (host, port) (fun m => { m with last_seen := now }) }

/-- `DispatcherState.set_busy`: no-op if the runner is gone. -/
def set_busy (st : DispatcherState) (rid : Rid) (b : Bool) : DispatcherState :=
  { st with runners := updateA st.runners rid (fun m => { m with busy := b }) }

/-- `DispatcherState._requeue_commit_locked`. -/
def requeue_commit_locked (st : DispatcherState) (commit : String) : DispatcherState :=
  let tasks1 := setdefaultA st.tasks commit 0
  let retry := (lookupA tasks1 commit).getD 0
  let st1 : DispatcherState := { st with tasks := tasks1, assigned := removeA st.assigned commit }
  if RETRY_MAX ≤ retry then st1
  else { st1 with
    tasks := updateA tasks1 commit (fun r => r + 1),
    pending := st1.pending ++ [commit] }

/-- `DispatcherState.evict_runner`: requeue everything assigned to `rid`
(iterating over a snapshot of the assignment items), then remove `rid`
from the table and from the ring. -/
def evict_runner (st : DispatcherState) (rid : Rid) : DispatcherState :=
  let victims := (st.assigned.filter fun p => p.2 = rid).map Prod.fst
  let st1 := victims.foldl requeue_commit_locked st
  { st1 with
    runners := removeA st1.runners rid,
    runner_ring := eraseFirst st1.runner_ring rid }

/-- `meta = runners.get(rid); if meta and (not meta["busy"])`: a probed ring
entry is idle iff it is present in the table with `busy` unset. -/
def idleIn (runners : List (Rid × RunnerMeta)) (rid : Rid) : Bool :=
  match lookupA runners rid with
  | some m => !m.busy
  | none => false

/-- The `for _ in range(n)` loop body of `pick_idle_runner_rr`: inspect the
head, rotate it to the tail, return it if idle, else continue. -/
def pickLoop (runners : List (Rid × RunnerMeta)) : Nat → List Rid → Option Rid × List Rid
  | 0, ring => (none, ring)
  | _ + 1, [] => (none, [])
  | k + 1, rid :: rest =>
    let ring' := rest ++ [rid]
    if idleIn runners rid then (some rid, ring') else pickLoop runners k ring'

/-- `DispatcherState.pick_idle_runner_rr`: the rotated ring is part of the
mutated state. -/
def pick_idle_runner_rr (st : DispatcherState) : Option Rid × DispatcherState :=
  if st.runner_ring.isEmpty then (none, st)
  else
    let res := pickLoop st.runners st.runner_ring.length st.runner_ring
    (res.1, { st with runner_ring := res.2 })

/-- `str.upper()` over the character list (the commands of this protocol are
ASCII).  `String.toUpper` itself is built on the non-reducible
`String.mapAux`, so the equivalent list-level map is used. -/
def pyUpper (s : String) : String := ⟨s.data.map Char.toUpper⟩

/-- Digit-run accumulator for the model of Python `int(token)`. -/
def pyDigitsAux : List Char → Nat → Option Nat
  | [], n => some n
  | c :: cs, n => if c.isDigit then pyDigitsAux cs (n * 10 + (c.toNat - 48)) else none

/-- Model of Python `int(token)` on a whitespace-free token: an optional
sign followed by at least one decimal digit; `none` models the raised
`ValueError` on any other token. -/
def pyInt? (s : String) : Option Int :=
  match s.data with
  | [] => none
  | '-' :: cs => if cs.isEmpty then none else (pyDigitsAux cs 0).map (fun n => -(n : Int))
  | '+' :: cs => if cs.isEmpty then none else (pyDigitsAux cs 0).map (fun n => (n : Int))
  | cs => (pyDigitsAux cs 0).map (fun n => (n : Int))

/-- `fmt_ts`: empty string for `None`, a nonempty rendering otherwise. -/
def fmtTs : Option Nat → String
  | none => ""
  | some t => toString t

/-- Python truthiness of an optional timestamp: `None` and `0.0` are falsy. -/
def tsTruthy : Option Nat → Bool
  | none => false
  | some t => t != 0

/-- State effects of the `DISPATCH` branch of `Handler.handle`:
`tasks.setdefault(commit, {"retry": 0})`;
`commits.setdefault(commit, {})["queued_at"] = now`; enqueue. -/
def dispatchStep (st : DispatcherState) (commit : String) (now : Nat) : DispatcherState :=
  { st with
    tasks := setdefaultA st.tasks commit 0,
    commits := updateA (setdefaultA st.commits commit ({} : Timeline)) commit
      (fun t => { t with queued_at := some now }),
    pending := st.pending ++ [commit] }

/-- State effects of the `RESULT` branch of `Handler.handle`: pop the
assignment, clear the runner's busy flag when it is known, record
`completed_at`. -/
def resultStep (st : DispatcherState) (commit : String) (now : Nat) : DispatcherState :=
  let rid := lookupA st.assigned commit
  let st1 : DispatcherState := { st with assigned := removeA st.assigned commit }
  let st2 : DispatcherState :=
    match rid with
    | some r => { st1 with runners := updateA st1.runners r (fun m => { m with busy := false }) }
    | none => st1
  { st2 with
    commits := updateA (setdefaultA st2.commits commit ({} : Timeline)) commit
      (fun t => { t with completed_at := some now }) }

/-- The lines of the result file written by the `RESULT` branch, computed
from the state after `resultStep` (as the source re-reads
`STATE.commits[commit]` after recording completion; `completed_at` is the
local variable `now`). -/
def resultFile (st : DispatcherState) (commit status seconds : String) (now : Nat) :
    List String :=
  let meta := (lookupA st.commits commit).getD ({} : Timeline)
  let queued_at := meta.queued_at
  let assigned_at := meta.assigned_at
  let runner_info := meta.runner
  let q_to_a : Option Int :=
    if tsTruthy queued_at && tsTruthy assigned_at then
      some ((assigned_at.getD 0 : Int) - (queued_at.getD 0 : Int))
    else none
  let a_to_c : Option Int :=
    if tsTruthy assigned_at && (now != 0) then
      some ((now : Int) - (assigned_at.getD 0 : Int))
    else none
  let total : Option Int :=
    if tsTruthy queued_at && (now != 0) then
      some ((now : Int) - (queued_at.getD 0 : Int))
    else none
  ["commit=" ++ commit,
   "status=" ++ status,
   "duration_seconds_runner=" ++ seconds,
   "queued_at_local=" ++ fmtTs queued_at,
   "assigned_at_local=" ++ fmtTs assigned_at,
   "completed_at_local=" ++ fmtTs (some now)]
  ++ (match runner_info with
      | some r => ["runner_host=" ++ r.1, "runner_port=" ++ toString r.2]
      | none => [])
  ++ (match q_to_a with
      | some v => ["latency_queue_to_assign_sec=" ++ toString v]
      | none => [])
  ++ (match a_to_c with
      | some v => ["latency_assign_to_finish_sec=" ++ toString v]
      | none => [])
  ++ (match total with
      | some v => ["latency_total_sec=" ++ toString v]
      | none => [])

/-- Outcome of one protocol request: `msg` is a one-line reply, `silent` is
the early return on an empty request line, `raised` is an uncaught
exception escaping `Handler.handle` (no reply line is ever written then). -/
inductive HReply where
  | msg (s : String)
  | silent
  | raised
deriving Repr, DecidableEq

/-- Result of handling one request: successor state, reply, and the result
file (commit, lines) when one is written. -/
structure HandleOut where
  st : DispatcherState
  reply : HReply
  file : Option (String × List String)
deriving Repr, DecidableEq

/-- `Handler.handle` after tokenisation: `cmd = parts[0].upper()`, then the
`elif` chain.  A `REGISTER`/`HEARTBEAT` whose port token fails `int(...)`
raises before any state is touched.  The `RESULT` seconds token is never
parsed: it is echoed into the file verbatim. -/
def handleCmd (st : DispatcherState) (now : Nat) (parts : List String) : HandleOut :=
  match parts with
  | [] => ⟨st, .silent, none⟩
  | cmd0 :: args =>
    match pyUpper cmd0, args with
    | "STATUS", _ =>
        ⟨st, .msg ("OK RUNNERS " ++ toString st.runners.length ++ " PENDING " ++
          toString st.pending.length ++ " ASSIGNED " ++ toString st.assigned.length), none⟩
    | "REGISTER", host :: portS :: _ =>
        (match pyInt? portS with
         | none => ⟨st, .raised, none⟩
         | some port => ⟨register_runner st host port now, .msg "REGISTERED", none⟩)
    | "HEARTBEAT", host :: portS :: _ =>
        (match pyInt? portS with
         | none => ⟨st, .raised, none⟩
         | some port => ⟨heartbeat st host port now, .msg "ALIVE", none⟩)
    | "DISPATCH", commit :: _ =>
        ⟨dispatchStep st commit now, .msg "QUEUED", none⟩
    | "RESULT", commit :: status :: seconds :: _ =>
        let st3 := resultStep st commit now
        ⟨st3, .msg "ACK", some (commit, resultFile st3 commit status seconds now)⟩
    | _, _ => ⟨st, .msg "ERR", none⟩

/-- `str.strip()`: drop leading and trailing whitespace.  Implemented over
the character list (`String.trim` is built on non-reducible substring
primitives). -/
def pyStrip (s : String) : String :=
  ⟨((s.data.dropWhile Char.isWhitespace).reverse.dropWhile Char.isWhitespace).reverse⟩

/-- Accumulator loop for `str.split()`: collect maximal runs of
non-whitespace characters. -/
def pyWordsAux : List Char → List Char → List String
  | [], acc => if acc.isEmpty then [] else [⟨acc.reverse⟩]
  | c :: cs, acc =>
    if c.isWhitespace then
      if acc.isEmpty then pyWordsAux cs [] else ⟨acc.reverse⟩ :: pyWordsAux cs []
    else pyWordsAux cs (c :: acc)

/-- Python `str.split()` with no separator: whitespace runs delimit tokens
and produce no empty tokens. -/
def pySplit (s : String) : List String := pyWordsAux s.data []

/-- `Handler.handle` on a raw request line: strip, return silently when
empty, else tokenise and dispatch on the command. -/
def handle (st : DispatcherState) (now : Nat) (line : String) : HandleOut :=
  let l := pyStrip line
  if l = "" then ⟨st, .silent, none⟩ else handleCmd st now (pySplit l)

/-- Outcome of one assigner dispatch attempt: the runner replied `OK`,
replied something else (`BUSY`/`ERR`/empty), or the connection failed. -/
inductive AssignOutcome where
  | ok
  | rejected
  | connfail
deriving Repr, DecidableEq

/-- One atomic scheduler event.  `register`/`heartbeat`/`dispatch`/`result`
are the state effects of the protocol branches; `evict` is
`evict_runner` (janitor or assigner); `pickRR` and `setBusy` are the
assigner's probe and eager busy-marking; `assignCycle` is the remainder of
one `assigner_loop` iteration: pop the queue head, then either record the
assignment (`ok`), clear busy and requeue (`rejected`), or evict the
runner and requeue (`connfail`). -/
inductive Op where
  | register (host : String) (port : Int) (now : Nat)
  | heartbeat (host : String) (port : Int) (now : Nat)
  | dispatch (commit : String) (now : Nat)
  | result (commit status seconds : String) (now : Nat)
  | evict (rid : Rid)
  | pickRR
  | setBusy (rid : Rid) (b : Bool)
  | assignCycle (rid : Rid) (outcome : AssignOutcome) (now : Nat)
deriving Repr, DecidableEq

/-- The state transition of one event. -/
def step (st : DispatcherState) : Op → DispatcherState
  | .register h p now => register_runner st h p now
  | .heartbeat h p now => heartbeat st h p now
  | .dispatch c now => dispatchStep st c now
  | .result c _ _ now => resultStep st c now
  | .evict rid => evict_runner st rid
  | .pickRR => (pick_idle_runner_rr st).2
  | .setBusy rid b => set_busy st rid b
  | .assignCycle rid outcome now =>
    match st.pending with
    | [] => st
    | c :: rest =>
      let st1 : DispatcherState := { st with pending := rest }
      match outcome with
      | .ok => { st1 with
          assigned := insertA st1.assigned c rid,
          commits := updateA (setdefaultA st1.commits c ({} : Timeline)) c
            (fun t => { t with assigned_at := some now, runner := some rid }) }
      | .rejected => requeue_commit_locked (set_busy st1 rid false) c
      | .connfail => requeue_commit_locked (evict_runner st1 rid) c

/-- The state reached from the empty initial state by a sequence of events. -/
def exec (ops : List Op) : DispatcherState := ops.foldl step initState

/-- Current retry counter of a commit (`0` when it has no task record yet). -/
def retryOf (st : DispatcherState) (c : String) : Nat := (lookupA st.tasks c).getD 0

/-- Key list of an association list (`dict.keys()`). -/
def keys {α β : Type} [DecidableEq α] (l : List (α × β)) : List α := l.map Prod.fst

end MiniCI

namespace MiniCI

variable {α β : Type} [DecidableEq α]

theorem keys_cons (p : α × β) (rest : List (α × β)) :
    keys (p :: rest) = p.1 :: keys rest := rfl

theorem lookupA_cons_eq {p : α × β} {a : α} (rest : List (α × β)) (h : p.1 = a) :
    lookupA (p :: rest) a = some p.2 := by
  obtain ⟨x, y⟩ := p
  exact if_pos h

theorem lookupA_cons_ne {p : α × β} {a : α} (rest : List (α × β)) (h : ¬p.1 = a) :
    lookupA (p :: rest) a = lookupA rest a := by
  obtain ⟨x, y⟩ := p
  exact if_neg h

theorem updateA_cons_eq {p : α × β} {k : α} (rest : List (α × β)) (f : β → β)
    (h : p.1 = k) : updateA (p :: rest) k f = (p.1, f p.2) :: updateA rest k f := by
  simp only [updateA, if_pos h]

theorem updateA_cons_ne {p : α × β} {k : α} (rest : List (α × β)) (f : β → β)
    (h : ¬p.1 = k) : updateA (p :: rest) k f = p :: updateA rest k f := by
  simp only [updateA, if_neg h]

theorem removeA_cons_eq {p : α × β} {k : α} (rest : List (α × β)) (h : p.1 = k) :
    removeA (p :: rest) k = removeA rest k := by
  simp only [removeA, if_pos h]

theorem removeA_cons_ne {p : α × β} {k : α} (rest : List (α × β)) (h : ¬p.1 = k) :
    removeA (p :: rest) k = p :: removeA rest k := by
  simp only [removeA, if_neg h]

theorem mem_keys_iff_lookupA {l : List (α × β)} {a : α} :
    a ∈ keys l ↔ (lookupA l a).isSome := by
  induction l with
  | nil => simp [lookupA, keys]
  | cons p rest ih =>
    rw [keys_cons, List.mem_cons]
    by_cases h : p.1 = a
    · rw [lookupA_cons_eq rest h]
      simp [h.symm]
    · rw [lookupA_cons_ne rest h, ← ih]
      simp only [or_iff_right_iff_imp]
      exact fun hc => absurd hc.symm h

theorem lookupA_eq_none_iff {l : List (α × β)} {a : α} :
    lookupA l a = none ↔ a ∉ keys l := by
  rw [mem_keys_iff_lookupA, Option.isSome_iff_ne_none]
  tauto

theorem lookupA_append_sing_self {l : List (α × β)} {k : α}
    (h : lookupA l k = none) (v : β) : lookupA (l ++ [(k, v)]) k = some v := by
  induction l with
  | nil => simp [lookupA]
  | cons p rest ih =>
    by_cases hp : p.1 = k
    · rw [lookupA_cons_eq rest hp] at h
      exact absurd h (by simp)
    · rw [lookupA_cons_ne rest hp] at h
      rw [List.cons_append, lookupA_cons_ne _ hp, ih h]

theorem lookupA_append_sing_ne {k a : α} (l : List (α × β)) (v : β) (h : ¬a = k) :
    lookupA (l ++ [(k, v)]) a = lookupA l a := by
  induction l with
  | nil =>
    have hk : ¬(k = a) := fun hc => h hc.symm
    simp only [List.nil_append]
    rw [lookupA_cons_ne _ hk]
  | cons p rest ih =>
    by_cases hp : p.1 = a
    · rw [List.cons_append, lookupA_cons_eq _ hp, lookupA_cons_eq rest hp]
    · rw [List.cons_append, lookupA_cons_ne _ hp, lookupA_cons_ne rest hp, ih]

theorem keys_setdefaultA (l : List (α × β)) (k : α) (v : β) :
    keys (setdefaultA l k v) =
      if (lookupA l k).isSome then keys l else keys l ++ [k] := by
  by_cases h : (lookupA l k).isSome <;> simp [setdefaultA, keys, h]

theorem lookupA_setdefaultA_self (l : List (α × β)) (k : α) (v : β) :
    lookupA (setdefaultA l k v) k = some ((lookupA l k).getD v) := by
  by_cases h : (lookupA l k).isSome
  · obtain ⟨b, hb⟩ := Option.isSome_iff_exists.mp h
    simp [setdefaultA, h, hb]
  · rw [Option.not_isSome_iff_eq_none] at h
    rw [setdefaultA, if_neg (by simp [h]), lookupA_append_sing_self h, h]
    rfl

theorem lookupA_setdefaultA_ne (l : List (α × β)) {k a : α} (v : β) (h : ¬a = k) :
    lookupA (setdefaultA l k v) a = lookupA l a := by
  by_cases hs : (lookupA l k).isSome
  · simp [setdefaultA, hs]
  · rw [setdefaultA, if_neg hs, lookupA_append_sing_ne l v h]

theorem keys_updateA (l : List (α × β)) (k : α) (f : β → β) :
    keys (updateA l k f) = keys l := by
  induction l with
  | nil => rfl
  | cons p rest ih =>
    by_cases h : p.1 = k
    · rw [updateA_cons_eq rest f h, keys_cons, keys_cons, ih]
    · rw [updateA_cons_ne rest f h, keys_cons, keys_cons, ih]

theorem lookupA_updateA_self (l : List (α × β)) (k : α) (f : β → β) :
    lookupA (updateA l k f) k = (lookupA l k).map f := by
  induction l with
  | nil => rfl
  | cons p rest ih =>
    by_cases h : p.1 = k
    · rw [updateA_cons_eq rest f h, lookupA_cons_eq rest h,
        @lookupA_cons_eq α β _ (p.1, f p.2) k (updateA rest k f) h]
      rfl
    · rw [updateA_cons_ne rest f h, lookupA_cons_ne rest h,
        @lookupA_cons_ne α β _ p k (updateA rest k f) h, ih]

theorem lookupA_updateA_ne (l : List (α × β)) {k a : α} (f : β → β) (h : ¬a = k) :
    lookupA (updateA l k f) a = lookupA l a := by
  induction l with
  | nil => rfl
  | cons p rest ih =>
    by_cases hp : p.1 = k
    · have hpa : ¬p.1 = a := fun hc => h (hc ▸ hp.symm ▸ rfl)
      rw [updateA_cons_eq rest f hp, lookupA_cons_ne rest hpa,
        @lookupA_cons_ne α β _ (p.1, f p.2) a (updateA rest k f) hpa, ih]
    · by_cases ha : p.1 = a
      · rw [updateA_cons_ne rest f hp, lookupA_cons_eq rest ha,
          @lookupA_cons_eq α β _ p a (updateA rest k f) ha]
      · rw [updateA_cons_ne rest f hp, lookupA_cons_ne rest ha,
          @lookupA_cons_ne α β _ p a (updateA rest k f) ha, ih]

theorem lookupA_removeA_self (l : List (α × β)) (k : α) :
    lookupA (removeA l k) k = none := by
  induction l with
  | nil => rfl
  | cons p rest ih =>
    by_cases h : p.1 = k
    · rw [removeA_cons_eq rest h, ih]
    · rw [removeA_cons_ne rest h, lookupA_cons_ne _ h, ih]

theorem lookupA_removeA_ne (l : List (α × β)) {k a : α} (h : ¬a = k) :
    lookupA (removeA l k) a = lookupA l a := by
  induction l with
  | nil => rfl
  | cons p rest ih =>
    by_cases hp : p.1 = k
    · have hpa : ¬p.1 = a := fun hc => h (hc ▸ hp.symm ▸ rfl)
      rw [removeA_cons_eq rest hp, lookupA_cons_ne rest hpa, ih]
    · by_cases ha : p.1 = a
      · rw [removeA_cons_ne rest hp, lookupA_cons_eq rest ha,
          @lookupA_cons_eq α β _ p a (removeA rest k) ha]
      · rw [removeA_cons_ne rest hp, lookupA_cons_ne rest ha,
          @lookupA_cons_ne α β _ p a (removeA rest k) ha, ih]

theorem removeA_eq_self_of_none {l : List (α × β)} {k : α} (h : lookupA l k = none) :
    removeA l k = l := by
  induction l with
  | nil => rfl
  | cons p rest ih =>
    by_cases hp : p.1 = k
    · rw [lookupA_cons_eq rest hp] at h
      exact absurd h (by simp)
    · rw [lookupA_cons_ne rest hp] at h
      rw [removeA_cons_ne rest hp, ih h]

theorem keys_removeA (l : List (α × β)) (k : α) :
    keys (removeA l k) = (keys l).filter (fun a => a ≠ k) := by
  induction l with
  | nil => rfl
  | cons p rest ih =>
    by_cases h : p.1 = k
    · rw [removeA_cons_eq rest h, keys_cons, ih]
      simp [List.filter_cons, h]
    · rw [removeA_cons_ne rest h, keys_cons, keys_cons, ih]
      simp [List.filter_cons, h]

theorem keys_insertA (l : List (α × β)) (k : α) (v : β) :
    keys (insertA l k v) =
      if (lookupA l k).isSome then keys l else keys l ++ [k] := by
  by_cases h : (lookupA l k).isSome
  · rw [insertA, if_pos h, if_pos h]
    exact keys_updateA l k _
  · rw [insertA, if_neg h, if_neg h]
    simp [keys]

theorem lookupA_insertA_self (l : List (α × β)) (k : α) (v : β) :
    lookupA (insertA l k v) k = some v := by
  by_cases h : (lookupA l k).isSome
  · obtain ⟨b, hb⟩ := Option.isSome_iff_exists.mp h
    simp [insertA, h, lookupA_updateA_self, hb]
  · rw [Option.not_isSome_iff_eq_none] at h
    rw [insertA, if_neg (by simp [h]), lookupA_append_sing_self h]

theorem lookupA_insertA_ne (l : List (α × β)) {k a : α} (v : β) (h : ¬a = k) :
    lookupA (insertA l k v) a = lookupA l a := by
  by_cases hs : (lookupA l k).isSome
  · simp [insertA, hs, lookupA_updateA_ne _ _ h]
  · rw [insertA, if_neg hs, lookupA_append_sing_ne l v h]

theorem eraseFirst_sublist (l : List α) (a : α) : (eraseFirst l a).Sublist l := by
  induction l with
  | nil => simp [eraseFirst]
  | cons x xs ih =>
    by_cases h : x = a
    · rw [eraseFirst, if_pos h]
      exact List.sublist_cons_self x xs
    · rw [eraseFirst, if_neg h]
      exact List.Sublist.cons₂ x ih

theorem nodup_eraseFirst {l : List α} (a : α) (h : l.Nodup) :
    (eraseFirst l a).Nodup :=
  (eraseFirst_sublist l a).nodup h

theorem eraseFirst_of_not_mem {l : List α} {a : α} (h : a ∉ l) :
    eraseFirst l a = l := by
  induction l with
  | nil => rfl
  | cons x xs ih =>
    simp only [List.mem_cons] at h
    push_neg at h
    rw [eraseFirst, if_neg (fun hc => h.1 hc.symm), ih h.2]

theorem mem_eraseFirst_of_nodup {l : List α} {a b : α} (h : l.Nodup) :
    b ∈ eraseFirst l a ↔ b ∈ l ∧ b ≠ a := by
  induction l with
  | nil => simp [eraseFirst]
  | cons x xs ih =>
    rw [List.nodup_cons] at h
    by_cases hx : x = a
    · subst hx
      rw [eraseFirst, if_pos rfl, List.mem_cons]
      constructor
      · intro hb
        refine ⟨Or.inr hb, ?_⟩
        rintro rfl
        exact h.1 hb
      · rintro ⟨hb | hb, hne⟩
        · exact absurd hb hne
        · exact hb
    · rw [eraseFirst, if_neg hx, List.mem_cons, List.mem_cons, ih h.2]
      constructor
      · rintro (hb | ⟨hb, hne⟩)
        · refine ⟨Or.inl hb, ?_⟩
          rw [hb]
          exact hx
        · exact ⟨Or.inr hb, hne⟩
      · rintro ⟨hb | hb, hne⟩
        · exact Or.inl hb
        · exact Or.inr ⟨hb, hne⟩

theorem length_eraseFirst_of_mem {l : List α} {a : α} (h : a ∈ l) :
    (eraseFirst l a).length + 1 = l.length := by
  induction l with
  | nil => simp at h
  | cons x xs ih =>
    by_cases hx : x = a
    · rw [eraseFirst, if_pos hx, List.length_cons]
    · rw [List.mem_cons] at h
      rcases h with h | h
      · exact absurd h.symm hx
      · rw [eraseFirst, if_neg hx, List.length_cons, List.length_cons, ih h]

end MiniCI

namespace MiniCI

theorem setdefaultA_eq_self {α β : Type} [DecidableEq α] {l : List (α × β)} {k : α}
    (v : β) (h : (lookupA l k).isSome) : setdefaultA l k v = l := by
  rw [setdefaultA, if_pos h]

theorem handleCmd_register (st : DispatcherState) (now : Nat) (h p : String)
    (rest : List String) :
    handleCmd st now ("REGISTER" :: h :: p :: rest) =
      (match pyInt? p with
       | none => ⟨st, .raised, none⟩
       | some port => ⟨register_runner st h port now, .msg "REGISTERED", none⟩) := rfl

theorem handleCmd_heartbeat (st : DispatcherState) (now : Nat) (h p : String)
    (rest : List String) :
    handleCmd st now ("HEARTBEAT" :: h :: p :: rest) =
      (match pyInt? p with
       | none => ⟨st, .raised, none⟩
       | some port => ⟨heartbeat st h port now, .msg "ALIVE", none⟩) := rfl

theorem handleCmd_dispatch (st : DispatcherState) (now : Nat) (c : String)
    (rest : List String) :
    handleCmd st now ("DISPATCH" :: c :: rest) =
      ⟨dispatchStep st c now, .msg "QUEUED", none⟩ := rfl

theorem handleCmd_result (st : DispatcherState) (now : Nat) (c s sec : String)
    (rest : List String) :
    handleCmd st now ("RESULT" :: c :: s :: sec :: rest) =
      ⟨resultStep st c now, .msg "ACK",
       some (c, resultFile (resultStep st c now) c s sec now)⟩ := rfl

/-- **C6**: `register(host, port)` is idempotent.  If the `(host, port)` pair
is already present in the runner table, a register leaves the whole state
unchanged (in particular its busy flag and `last_seen` are untouched and no
duplicate ring entry is appended); consequently two consecutive registers
always produce the same state as one. -/
theorem register_noop (st : DispatcherState) (host : String) (port : Int) (n : Nat)
    (h : (lookupA st.runners (host, port)).isSome) :
    register_runner st host port n = st := by
  simp only [register_runner, if_pos h]

theorem register_idempotent (st : DispatcherState) (host : String) (port : Int)
    (n1 n2 : Nat) :
    ((lookupA st.runners (host, port)).isSome → register_runner st host port n1 = st) ∧
    register_runner (register_runner st host port n1) host port n2 =
      register_runner st host port n1 := by
  refine ⟨register_noop st host port n1, ?_⟩
  by_cases h : (lookupA st.runners (host, port)).isSome
  · rw [register_noop st host port n1 h]
    exact register_noop st host port n2 h
  · apply register_noop
    have h0 : lookupA st.runners (host, port) = none :=
      Option.not_isSome_iff_eq_none.mp h
    have h1 : (register_runner st host port n1).runners =
        st.runners ++ [((host, port), { busy := false, last_seen := n1 })] := by
      simp only [register_runner, if_neg h]
    rw [h1, lookupA_append_sing_self h0]
    rfl

/-- Concrete instance of `register_idempotent`, discharging its hypothesis:
registering `("h", 1)` a second time is a complete no-op. -/
theorem register_idempotent_witness :
    register_runner (register_runner initState "h" 1 0) "h" 1 5 =
      register_runner initState "h" 1 0 :=
  (register_idempotent (register_runner initState "h" 1 0) "h" 1 5 7).1 (by decide)

/-- **C7**: two `DISPATCH` commands for the same revision leave exactly one
task record for it, the second dispatch leaves the retry counter unchanged
(`0` when the revision was fresh), and `queued_at` is overwritten with the
timestamp of the latest submission. -/
theorem dispatch_twice (st : DispatcherState) (c : String) (t1 t2 : Nat)
    (hkeys : (keys st.tasks).count c ≤ 1) :
    (keys (dispatchStep (dispatchStep st c t1) c t2).tasks).count c = 1 ∧
    lookupA (dispatchStep (dispatchStep st c t1) c t2).tasks c =
      lookupA (dispatchStep st c t1).tasks c ∧
    (lookupA st.tasks c = none →
      lookupA (dispatchStep (dispatchStep st c t1) c t2).tasks c = some 0) ∧
    (lookupA (dispatchStep (dispatchStep st c t1) c t2).commits c).map
      Timeline.queued_at = some (some t2) := by
  have htasks1 : (dispatchStep st c t1).tasks = setdefaultA st.tasks c 0 := rfl
  have hsome1 : (lookupA (dispatchStep st c t1).tasks c).isSome := by
    rw [htasks1, lookupA_setdefaultA_self]
    rfl
  have htasks2 : (dispatchStep (dispatchStep st c t1) c t2).tasks =
      (dispatchStep st c t1).tasks := by
    show setdefaultA (dispatchStep st c t1).tasks c 0 = (dispatchStep st c t1).tasks
    exact setdefaultA_eq_self 0 hsome1
  refine ⟨?_, by rw [htasks2], ?_, ?_⟩
  · rw [htasks2, htasks1, keys_setdefaultA]
    by_cases h : (lookupA st.tasks c).isSome
    · rw [if_pos h]
      have hmem : c ∈ keys st.tasks := mem_keys_iff_lookupA.mpr h
      have h1 : 1 ≤ (keys st.tasks).count c := List.one_le_count_iff.mpr hmem
      omega
    · rw [if_neg h]
      have hnone : lookupA st.tasks c = none := Option.not_isSome_iff_eq_none.mp h
      have hno : c ∉ keys st.tasks := lookupA_eq_none_iff.mp hnone
      rw [List.count_append, List.count_eq_zero.mpr hno]
      simp
  · intro hfresh
    rw [htasks2, htasks1, lookupA_setdefaultA_self, hfresh]
    rfl
  · have hc2 : (dispatchStep (dispatchStep st c t1) c t2).commits =
        updateA (setdefaultA (dispatchStep st c t1).commits c ({} : Timeline)) c
          (fun t => { t with queued_at := some t2 }) := rfl
    rw [hc2, lookupA_updateA_self, lookupA_setdefaultA_self]
    rfl

/-- Concrete instance of `dispatch_twice`, discharging its hypothesis at the
empty initial state. -/
theorem dispatch_twice_witness :
    (keys (dispatchStep (dispatchStep initState "c1" 4) "c1" 9).tasks).count "c1" = 1 ∧
    lookupA (dispatchStep (dispatchStep initState "c1" 4) "c1" 9).tasks "c1" = some 0 ∧
    (lookupA (dispatchStep (dispatchStep initState "c1" 4) "c1" 9).commits "c1").map
      Timeline.queued_at = some (some 9) := by
  obtain ⟨h1, _, h3, h4⟩ := dispatch_twice initState "c1" 4 9 (by decide)
  exact ⟨h1, h3 (by decide), h4⟩

end MiniCI

namespace MiniCI

/-- **C2** (counterexample): the request line `REGISTER h x` has a
non-integer port token, yet the handler does not reply `ERR`: the
`int(parts[2])` conversion raises an uncaught exception that escapes
`Handler.handle`, so no reply line is written at all (and `RESULT` lines
with a non-decimal seconds token are replied `ACK`, not `ERR`). -/
theorem malformed_port_counterexample :
    handle initState 0 "REGISTER h x" =
      { st := initState, reply := HReply.raised, file := none } ∧
    (handle initState 0 "REGISTER h x").reply ≠ HReply.msg "ERR" ∧
    (handleCmd initState 7 ["RESULT", "c1", "OK", "zz"]).reply = HReply.msg "ACK" := by
  decide

/-- **C2** (amended): a `REGISTER` or `HEARTBEAT` whose port token is not an
integer raises an uncaught exception out of the handler — no reply line (in
particular not `ERR`) is written and no state is mutated; the `RESULT`
seconds token is never parsed, so a request with a malformed seconds token
is processed like any other `RESULT` and replied `ACK`. -/
theorem malformed_numeric_fields (st : DispatcherState) (now : Nat)
    (h p c s sec : String) (rest : List String) (hp : pyInt? p = none) :
    handleCmd st now ("REGISTER" :: h :: p :: rest) =
      { st := st, reply := HReply.raised, file := none } ∧
    handleCmd st now ("HEARTBEAT" :: h :: p :: rest) =
      { st := st, reply := HReply.raised, file := none } ∧
    (handleCmd st now ("RESULT" :: c :: s :: sec :: rest)).reply = HReply.msg "ACK" := by
  refine ⟨?_, ?_, ?_⟩
  · rw [handleCmd_register, hp]
  · rw [handleCmd_heartbeat, hp]
  · rw [handleCmd_result]

/-- Concrete instance of `malformed_numeric_fields`, discharging its
hypothesis on the token `x`. -/
theorem malformed_numeric_fields_witness :
    handleCmd initState 0 ["REGISTER", "h", "x"] =
      { st := initState, reply := HReply.raised, file := none } ∧
    handleCmd initState 0 ["HEARTBEAT", "h", "x"] =
      { st := initState, reply := HReply.raised, file := none } ∧
    (handleCmd initState 0 ["RESULT", "c1", "OK", "zz"]).reply = HReply.msg "ACK" :=
  malformed_numeric_fields initState 0 "h" "x" "c1" "OK" "zz" [] (by decide)

/-- **C9** (counterexample): `c1` is DISPATCHed (gaining a `queued_at`
timeline entry) but never assigned.  A `RESULT` for it finds it absent from
the assignment map, yet the emitted file carries a non-empty
`queued_at_local` value and a `latency_total_sec` line — contradicting the
claim that every `RESULT` for a revision outside the assignment map yields
a file with an empty `queued_at_local` value and no latency lines. -/
theorem result_not_assigned_counterexample :
    lookupA (dispatchStep initState "c1" 5).assigned "c1" = none ∧
    (handleCmd (dispatchStep initState "c1" 5) 9 ["RESULT", "c1", "OK", "1.5"]).file =
      some ("c1",
        ["commit=c1", "status=OK", "duration_seconds_runner=1.5",
         "queued_at_local=5", "assigned_at_local=", "completed_at_local=9",
         "latency_total_sec=4"]) := by
  decide

/-- **C9** (amended): a `RESULT` for a revision that is absent from the
assignment map *and from the timeline map* is processed defensively: the
assignment-map removal is a no-op, no runner entry changes (so no busy flag
does), a timeline entry holding only `completed_at` is created, the reply
is `ACK`, and the file consists of the three echo lines followed by an
empty `queued_at_local`, an empty `assigned_at_local` and a non-empty
`completed_at_local` — with no runner lines and no latency lines. -/
theorem result_unknown_revision (st : DispatcherState) (c s sec : String) (now : Nat)
    (hassigned : lookupA st.assigned c = none)
    (hcommits : lookupA st.commits c = none) :
    (handleCmd st now ["RESULT", c, s, sec]).st.assigned = st.assigned ∧
    (handleCmd st now ["RESULT", c, s, sec]).st.runners = st.runners ∧
    lookupA (handleCmd st now ["RESULT", c, s, sec]).st.commits c =
      some { completed_at := some now } ∧
    (handleCmd st now ["RESULT", c, s, sec]).reply = HReply.msg "ACK" ∧
    (handleCmd st now ["RESULT", c, s, sec]).file =
      some (c, ["commit=" ++ c, "status=" ++ s, "duration_seconds_runner=" ++ sec,
        "queued_at_local=", "assigned_at_local=",
        "completed_at_local=" ++ toString now]) := by
  have hrm : removeA st.assigned c = st.assigned := removeA_eq_self_of_none hassigned
  have hcm : (resultStep st c now).commits =
      updateA (setdefaultA st.commits c ({} : Timeline)) c
        (fun t => { t with completed_at := some now }) := by
    simp only [resultStep, hassigned, hrm]
  have has : (resultStep st c now).assigned = st.assigned := by
    simp only [resultStep, hassigned, hrm]
  have hrn : (resultStep st c now).runners = st.runners := by
    simp only [resultStep, hassigned, hrm]
  have h2 : lookupA (resultStep st c now).commits c = some { completed_at := some now } := by
    rw [hcm, lookupA_updateA_self, lookupA_setdefaultA_self, hcommits]
    rfl
  have h3 : resultFile (resultStep st c now) c s sec now =
      ["commit=" ++ c, "status=" ++ s, "duration_seconds_runner=" ++ sec,
       "queued_at_local=", "assigned_at_local=",
       "completed_at_local=" ++ toString now] := by
    simp [resultFile, h2, tsTruthy, fmtTs]
  rw [handleCmd_result]
  exact ⟨has, hrn, h2, rfl, congrArg (fun l => some (c, l)) h3⟩

/-- Concrete instance of `result_unknown_revision`: a `RESULT` for the
never-seen revision `zz`, discharging both hypotheses. -/
theorem result_unknown_revision_witness :
    (handleCmd initState 9 ["RESULT", "zz", "OK", "1.5"]).file =
      some ("zz", ["commit=zz", "status=OK", "duration_seconds_runner=1.5",
        "queued_at_local=", "assigned_at_local=", "completed_at_local=9"]) :=
  (result_unknown_revision initState "zz" "OK" "1.5" 9 (by decide) (by decide)).2.2.2.2

end MiniCI

namespace MiniCI

theorem retry_setdefault (st : DispatcherState) (c : String) :
    (lookupA (setdefaultA st.tasks c 0) c).getD 0 = retryOf st c := by
  rw [lookupA_setdefaultA_self]
  rfl

/-- Normal form of the requeue procedure when the retry counter has reached
the cap: the assignment entry is dropped and nothing else changes (the task
record is only materialised by the `setdefault`). -/
theorem requeue_eq_at_cap (st : DispatcherState) (c : String)
    (h : RETRY_MAX ≤ retryOf st c) :
    requeue_commit_locked st c =
      ⟨st.runners, st.runner_ring, st.pending, removeA st.assigned c,
       setdefaultA st.tasks c 0, st.commits⟩ := by
  have h' : RETRY_MAX ≤ (lookupA (setdefaultA st.tasks c 0) c).getD 0 := by
    rw [retry_setdefault]
    exact h
  simp only [requeue_commit_locked, if_pos h']

/-- Normal form of the requeue procedure below the cap: the counter is
incremented and the revision is appended to the pending queue. -/
theorem requeue_eq_below_cap (st : DispatcherState) (c : String)
    (h : ¬RETRY_MAX ≤ retryOf st c) :
    requeue_commit_locked st c =
      ⟨st.runners, st.runner_ring, st.pending ++ [c], removeA st.assigned c,
       updateA (setdefaultA st.tasks c 0) c (fun r => r + 1), st.commits⟩ := by
  have h' : ¬RETRY_MAX ≤ (lookupA (setdefaultA st.tasks c 0) c).getD 0 := by
    rw [retry_setdefault]
    exact h
  simp only [requeue_commit_locked, if_neg h']

theorem requeue_tasks_lookup (st : DispatcherState) (c d : String) :
    lookupA (requeue_commit_locked st c).tasks d =
      if d = c then
        some (if RETRY_MAX ≤ retryOf st c then retryOf st c else retryOf st c + 1)
      else lookupA st.tasks d := by
  by_cases hcap : RETRY_MAX ≤ retryOf st c
  · rw [requeue_eq_at_cap st c hcap]
    by_cases hd : d = c
    · subst hd
      rw [if_pos rfl, if_pos hcap]
      show lookupA (setdefaultA st.tasks d 0) d = _
      rw [lookupA_setdefaultA_self]
      rfl
    · rw [if_neg hd]
      exact lookupA_setdefaultA_ne _ _ hd
  · rw [requeue_eq_below_cap st c hcap]
    by_cases hd : d = c
    · subst hd
      rw [if_pos rfl, if_neg hcap]
      show lookupA (updateA (setdefaultA st.tasks d 0) d (fun r => r + 1)) d = _
      rw [lookupA_updateA_self, lookupA_setdefaultA_self]
      rfl
    · rw [if_neg hd]
      show lookupA (updateA (setdefaultA st.tasks c 0) c (fun r => r + 1)) d = _
      rw [lookupA_updateA_ne _ _ hd, lookupA_setdefaultA_ne _ _ hd]

theorem retryOf_requeue (st : DispatcherState) (c d : String) :
    retryOf (requeue_commit_locked st c) d =
      if d = c then
        (if RETRY_MAX ≤ retryOf st c then retryOf st c else retryOf st c + 1)
      else retryOf st d := by
  show (lookupA (requeue_commit_locked st c).tasks d).getD 0 = _
  rw [requeue_tasks_lookup]
  by_cases hd : d = c
  · rw [if_pos hd, if_pos hd]
    rfl
  · rw [if_neg hd, if_neg hd]
    rfl

theorem requeue_tasks_isSome (st : DispatcherState) (c d : String)
    (h : (lookupA st.tasks d).isSome) :
    (lookupA (requeue_commit_locked st c).tasks d).isSome := by
  rw [requeue_tasks_lookup]
  by_cases hd : d = c
  · rw [if_pos hd]
    rfl
  · rw [if_neg hd]
    exact h

theorem retryOf_requeue_le (st : DispatcherState) (c d : String) :
    retryOf st d ≤ retryOf (requeue_commit_locked st c) d := by
  rw [retryOf_requeue]
  by_cases hd : d = c
  · subst hd
    rw [if_pos rfl]
    by_cases hcap : RETRY_MAX ≤ retryOf st d
    · rw [if_pos hcap]
    · rw [if_neg hcap]
      omega
  · rw [if_neg hd]

theorem retryOf_requeue_bounded (st : DispatcherState) (c : String)
    (h : ∀ e, retryOf st e ≤ RETRY_MAX) (d : String) :
    retryOf (requeue_commit_locked st c) d ≤ RETRY_MAX := by
  rw [retryOf_requeue]
  by_cases hd : d = c
  · rw [if_pos hd]
    by_cases hcap : RETRY_MAX ≤ retryOf st c
    · rw [if_pos hcap]
      exact h c
    · rw [if_neg hcap]
      omega
  · rw [if_neg hd]
    exact h d

/-- The requeue procedure touches only `pending`, `assigned` and `tasks`. -/
theorem requeue_other_fields (st : DispatcherState) (c : String) :
    (requeue_commit_locked st c).runners = st.runners ∧
    (requeue_commit_locked st c).runner_ring = st.runner_ring ∧
    (requeue_commit_locked st c).commits = st.commits := by
  by_cases hcap : RETRY_MAX ≤ retryOf st c
  · rw [requeue_eq_at_cap st c hcap]
    exact ⟨rfl, rfl, rfl⟩
  · rw [requeue_eq_below_cap st c hcap]
    exact ⟨rfl, rfl, rfl⟩

theorem fold_requeue_tasks (cs : List String) (st : DispatcherState) (d : String) :
    ((lookupA st.tasks d).isSome →
      (lookupA (cs.foldl requeue_commit_locked st).tasks d).isSome) ∧
    retryOf st d ≤ retryOf (cs.foldl requeue_commit_locked st) d := by
  induction cs generalizing st with
  | nil => exact ⟨fun h => h, Nat.le_refl _⟩
  | cons c cs ih =>
    rw [List.foldl_cons]
    obtain ⟨ih1, ih2⟩ := ih (requeue_commit_locked st c)
    exact ⟨fun h => ih1 (requeue_tasks_isSome st c d h),
      Nat.le_trans (retryOf_requeue_le st c d) ih2⟩

theorem fold_requeue_bounded (cs : List String) (st : DispatcherState)
    (h : ∀ e, retryOf st e ≤ RETRY_MAX) :
    ∀ e, retryOf (cs.foldl requeue_commit_locked st) e ≤ RETRY_MAX := by
  induction cs generalizing st with
  | nil => exact h
  | cons c cs ih =>
    rw [List.foldl_cons]
    exact ih (requeue_commit_locked st c) (retryOf_requeue_bounded st c h)

theorem register_runner_fields (st : DispatcherState) (h : String) (p : Int) (n : Nat) :
    (register_runner st h p n).pending = st.pending ∧
    (register_runner st h p n).assigned = st.assigned ∧
    (register_runner st h p n).tasks = st.tasks ∧
    (register_runner st h p n).commits = st.commits := by
  by_cases hr : (lookupA st.runners (h, p)).isSome
  · simp only [register_runner, if_pos hr]
    refine ⟨?_, ?_, ?_, ?_⟩ <;> trivial
  · simp only [register_runner, if_neg hr]
    refine ⟨?_, ?_, ?_, ?_⟩ <;> trivial

theorem resultStep_fields (st : DispatcherState) (c : String) (n : Nat) :
    (resultStep st c n).pending = st.pending ∧
    (resultStep st c n).tasks = st.tasks ∧
    (resultStep st c n).runner_ring = st.runner_ring := by
  cases hrid : lookupA st.assigned c <;>
    simp only [resultStep, hrid] <;> refine ⟨?_, ?_, ?_⟩ <;> trivial

theorem pickRR_fields (st : DispatcherState) :
    (pick_idle_runner_rr st).2.pending = st.pending ∧
    (pick_idle_runner_rr st).2.assigned = st.assigned ∧
    (pick_idle_runner_rr st).2.tasks = st.tasks ∧
    (pick_idle_runner_rr st).2.runners = st.runners ∧
    (pick_idle_runner_rr st).2.commits = st.commits := by
  by_cases he : st.runner_ring.isEmpty
  · simp only [pick_idle_runner_rr, if_pos he]
    refine ⟨?_, ?_, ?_, ?_, ?_⟩ <;> trivial
  · simp only [pick_idle_runner_rr, if_neg he]
    refine ⟨?_, ?_, ?_, ?_, ?_⟩ <;> trivial

theorem evict_runner_tasks_eq (st : DispatcherState) (rid : Rid) :
    (evict_runner st rid).tasks =
      (((st.assigned.filter fun p => p.2 = rid).map Prod.fst).foldl
        requeue_commit_locked st).tasks := rfl

theorem step_assignCycle_nil (st : DispatcherState) (rid : Rid) (o : AssignOutcome)
    (n : Nat) (hp : st.pending = []) : step st (.assignCycle rid o n) = st := by
  simp only [step, hp]

theorem step_assignCycle_ok (st : DispatcherState) (rid : Rid) (n : Nat)
    (c : String) (rest : List String) (hp : st.pending = c :: rest) :
    step st (.assignCycle rid .ok n) =
      ⟨st.runners, st.runner_ring, rest, insertA st.assigned c rid, st.tasks,
       updateA (setdefaultA st.commits c ({} : Timeline)) c
         (fun t => { t with assigned_at := some n, runner := some rid })⟩ := by
  simp only [step, hp]

theorem step_assignCycle_rejected (st : DispatcherState) (rid : Rid) (n : Nat)
    (c : String) (rest : List String) (hp : st.pending = c :: rest) :
    step st (.assignCycle rid .rejected n) =
      requeue_commit_locked
        (set_busy ⟨st.runners, st.runner_ring, rest, st.assigned, st.tasks, st.commits⟩
          rid false) c := by
  simp only [step, hp]

theorem step_assignCycle_connfail (st : DispatcherState) (rid : Rid) (n : Nat)
    (c : String) (rest : List String) (hp : st.pending = c :: rest) :
    step st (.assignCycle rid .connfail n) =
      requeue_commit_locked
        (evict_runner ⟨st.runners, st.runner_ring, rest, st.assigned, st.tasks, st.commits⟩
          rid) c := by
  simp only [step, hp]

/-- No event removes a task record, and no event lowers a retry counter. -/
theorem step_tasks_facts (st : DispatcherState) (op : Op) (d : String) :
    ((lookupA st.tasks d).isSome → (lookupA (step st op).tasks d).isSome) ∧
    retryOf st d ≤ retryOf (step st op) d := by
  cases op with
  | register h p n =>
    have e : (register_runner st h p n).tasks = st.tasks :=
      (register_runner_fields st h p n).2.2.1
    refine ⟨fun hs => ?_, ?_⟩
    · show (lookupA (register_runner st h p n).tasks d).isSome
      rw [e]
      exact hs
    · show retryOf st d ≤ (lookupA (register_runner st h p n).tasks d).getD 0
      rw [e]
      exact Nat.le_refl _
  | heartbeat h p n => exact ⟨fun hs => hs, Nat.le_refl _⟩
  | setBusy rid b => exact ⟨fun hs => hs, Nat.le_refl _⟩
  | dispatch c n =>
    refine ⟨fun hs => ?_, ?_⟩
    · show (lookupA (setdefaultA st.tasks c 0) d).isSome
      by_cases hd : d = c
      · subst hd
        rw [lookupA_setdefaultA_self]
        rfl
      · rw [lookupA_setdefaultA_ne _ _ hd]
        exact hs
    · show retryOf st d ≤ (lookupA (setdefaultA st.tasks c 0) d).getD 0
      by_cases hd : d = c
      · subst hd
        rw [retry_setdefault]
      · rw [lookupA_setdefaultA_ne _ _ hd]
        exact Nat.le_refl _
  | result c s sec n =>
    have e : (resultStep st c n).tasks = st.tasks := (resultStep_fields st c n).2.1
    refine ⟨fun hs => ?_, ?_⟩
    · show (lookupA (resultStep st c n).tasks d).isSome
      rw [e]
      exact hs
    · show retryOf st d ≤ (lookupA (resultStep st c n).tasks d).getD 0
      rw [e]
      exact Nat.le_refl _
  | evict rid =>
    have e := evict_runner_tasks_eq st rid
    obtain ⟨h1, h2⟩ :=
      fold_requeue_tasks ((st.assigned.filter fun p => p.2 = rid).map Prod.fst) st d
    refine ⟨fun hs => ?_, ?_⟩
    · show (lookupA (evict_runner st rid).tasks d).isSome
      rw [e]
      exact h1 hs
    · show retryOf st d ≤ (lookupA (evict_runner st rid).tasks d).getD 0
      rw [e]
      exact h2
  | pickRR =>
    have e : (pick_idle_runner_rr st).2.tasks = st.tasks := (pickRR_fields st).2.2.1
    refine ⟨fun hs => ?_, ?_⟩
    · show (lookupA (pick_idle_runner_rr st).2.tasks d).isSome
      rw [e]
      exact hs
    · show retryOf st d ≤ (lookupA (pick_idle_runner_rr st).2.tasks d).getD 0
      rw [e]
      exact Nat.le_refl _
  | assignCycle rid outcome n =>
    cases hp : st.pending with
    | nil =>
      rw [step_assignCycle_nil st rid outcome n hp]
      exact ⟨fun hs => hs, Nat.le_refl _⟩
    | cons c rest =>
      cases outcome with
      | ok =>
        rw [step_assignCycle_ok st rid n c rest hp]
        exact ⟨fun hs => hs, Nat.le_refl _⟩
      | rejected =>
        rw [step_assignCycle_rejected st rid n c rest hp]
        refine ⟨fun hs => requeue_tasks_isSome _ c d hs, ?_⟩
        exact retryOf_requeue_le
          (set_busy ⟨st.runners, st.runner_ring, rest, st.assigned, st.tasks, st.commits⟩
            rid false) c d
      | connfail =>
        rw [step_assignCycle_connfail st rid n c rest hp]
        obtain ⟨h1, h2⟩ := fold_requeue_tasks
          ((st.assigned.filter fun p => p.2 = rid).map Prod.fst)
          ⟨st.runners, st.runner_ring, rest, st.assigned, st.tasks, st.commits⟩ d
        refine ⟨fun hs => requeue_tasks_isSome _ c d (h1 hs), ?_⟩
        exact Nat.le_trans h2 (retryOf_requeue_le
          (evict_runner ⟨st.runners, st.runner_ring, rest, st.assigned, st.tasks, st.commits⟩
            rid) c d)

end MiniCI

namespace MiniCI

theorem step_retry_bounded (st : DispatcherState) (op : Op)
    (h : ∀ e, retryOf st e ≤ RETRY_MAX) :
    ∀ e, retryOf (step st op) e ≤ RETRY_MAX := by
  intro e
  cases op with
  | register hh p n =>
    have eq : (register_runner st hh p n).tasks = st.tasks :=
      (register_runner_fields st hh p n).2.2.1
    show (lookupA (register_runner st hh p n).tasks e).getD 0 ≤ RETRY_MAX
    rw [eq]
    exact h e
  | heartbeat hh p n => exact h e
  | setBusy rid b => exact h e
  | dispatch c n =>
    show (lookupA (setdefaultA st.tasks c 0) e).getD 0 ≤ RETRY_MAX
    by_cases hd : e = c
    · subst hd
      rw [retry_setdefault]
      exact h e
    · rw [lookupA_setdefaultA_ne _ _ hd]
      exact h e
  | result c s sec n =>
    have eq : (resultStep st c n).tasks = st.tasks := (resultStep_fields st c n).2.1
    show (lookupA (resultStep st c n).tasks e).getD 0 ≤ RETRY_MAX
    rw [eq]
    exact h e
  | evict rid =>
    have eq := evict_runner_tasks_eq st rid
    show (lookupA (evict_runner st rid).tasks e).getD 0 ≤ RETRY_MAX
    rw [eq]
    exact fold_requeue_bounded _ st h e
  | pickRR =>
    have eq : (pick_idle_runner_rr st).2.tasks = st.tasks := (pickRR_fields st).2.2.1
    show (lookupA (pick_idle_runner_rr st).2.tasks e).getD 0 ≤ RETRY_MAX
    rw [eq]
    exact h e
  | assignCycle rid outcome n =>
    cases hp : st.pending with
    | nil =>
      rw [step_assignCycle_nil st rid outcome n hp]
      exact h e
    | cons c rest =>
      cases outcome with
      | ok =>
        rw [step_assignCycle_ok st rid n c rest hp]
        exact h e
      | rejected =>
        rw [step_assignCycle_rejected st rid n c rest hp]
        exact retryOf_requeue_bounded
          (set_busy ⟨st.runners, st.runner_ring, rest, st.assigned, st.tasks, st.commits⟩
            rid false) c h e
      | connfail =>
        rw [step_assignCycle_connfail st rid n c rest hp]
        refine retryOf_requeue_bounded
          (evict_runner ⟨st.runners, st.runner_ring, rest, st.assigned, st.tasks, st.commits⟩
            rid) c (fun e2 => ?_) e
        show (lookupA (evict_runner ⟨st.runners, st.runner_ring, rest, st.assigned,
          st.tasks, st.commits⟩ rid).tasks e2).getD 0 ≤ RETRY_MAX
        rw [evict_runner_tasks_eq]
        exact fold_requeue_bounded _
          ⟨st.runners, st.runner_ring, rest, st.assigned, st.tasks, st.commits⟩ h e2

theorem foldl_step_retry_bounded (ops : List Op) (st : DispatcherState)
    (h : ∀ e, retryOf st e ≤ RETRY_MAX) :
    ∀ e, retryOf (ops.foldl step st) e ≤ RETRY_MAX := by
  induction ops generalizing st with
  | nil => exact h
  | cons op ops ih =>
    rw [List.foldl_cons]
    exact ih (step st op) (step_retry_bounded st op h)

theorem exec_retry_bounded (ops : List Op) : ∀ e, retryOf (exec ops) e ≤ RETRY_MAX :=
  foldl_step_retry_bounded ops initState (fun _ => Nat.zero_le _)

/-- **C1**: in every state reachable from the empty initial state by
scheduler events, no retry counter exceeds `RETRY_MAX` (default 3); and a
requeue invoked for a revision whose counter is at the cap drops the
revision — it is removed from the assignment map, the pending queue is left
exactly as it was (so the revision is not re-enqueued, and if it was absent
from pending it is thereafter absent from both pending and assigned), and
the counter stays put.  The requeue procedure cannot emit a result file:
its result is only a state, files being written solely by the `RESULT`
branch of the handler. -/
theorem retry_cap_enforced (ops : List Op) (st : DispatcherState) (c : String)
    (hcap : RETRY_MAX ≤ retryOf st c) :
    (∀ d, retryOf (exec ops) d ≤ RETRY_MAX) ∧
    lookupA (requeue_commit_locked st c).assigned c = none ∧
    (requeue_commit_locked st c).pending = st.pending ∧
    retryOf (requeue_commit_locked st c) c = retryOf st c ∧
    (c ∉ st.pending →
      c ∉ (requeue_commit_locked st c).pending ∧
      lookupA (requeue_commit_locked st c).assigned c = none) := by
  refine ⟨exec_retry_bounded ops, ?_, ?_, ?_, ?_⟩
  · rw [requeue_eq_at_cap st c hcap]
    exact lookupA_removeA_self _ _
  · rw [requeue_eq_at_cap st c hcap]
  · rw [retryOf_requeue, if_pos rfl, if_pos hcap]
  · intro hnp
    rw [requeue_eq_at_cap st c hcap]
    exact ⟨hnp, lookupA_removeA_self _ _⟩

/-- Concrete instance of `retry_cap_enforced`: requeueing `c1` at
`retry = 3` drops it — it leaves the assignment map and is not re-enqueued. -/
theorem retry_cap_enforced_witness :
    retryOf (exec []) "c1" ≤ RETRY_MAX ∧
    lookupA (requeue_commit_locked
      ⟨[], [], [], [("c1", ("h", 1))], [("c1", 3)], []⟩ "c1").assigned "c1" = none ∧
    (requeue_commit_locked
      ⟨[], [], [], [("c1", ("h", 1))], [("c1", 3)], []⟩ "c1").pending = [] := by
  obtain ⟨h1, h2, h3, -, -⟩ := retry_cap_enforced []
    ⟨[], [], [], [("c1", ("h", 1))], [("c1", 3)], []⟩ "c1" (by decide)
  exact ⟨h1 "c1", h2, h3⟩

/-- **C10**: no event deletes a task record or lowers a retry counter; a
revision whose counter sits at the cap is still re-accepted by a later
`DISPATCH` — replied `QUEUED`, re-enqueued, counter untouched — and the
very next requeue of that revision drops it again: nothing more enters the
pending queue, the revision leaves the assignment map, and its counter
still equals the cap. -/
theorem task_records_persistent (st : DispatcherState) (c : String) (now : Nat)
    (hcap : lookupA st.tasks c = some RETRY_MAX) :
    (∀ (st' : DispatcherState) (op : Op) (d : String),
      ((lookupA st'.tasks d).isSome → (lookupA (step st' op).tasks d).isSome) ∧
      retryOf st' d ≤ retryOf (step st' op) d) ∧
    (handleCmd st now ["DISPATCH", c]).reply = HReply.msg "QUEUED" ∧
    (handleCmd st now ["DISPATCH", c]).st.pending = st.pending ++ [c] ∧
    lookupA (handleCmd st now ["DISPATCH", c]).st.tasks c = some RETRY_MAX ∧
    (requeue_commit_locked (handleCmd st now ["DISPATCH", c]).st c).pending =
      st.pending ++ [c] ∧
    lookupA (requeue_commit_locked (handleCmd st now ["DISPATCH", c]).st c).assigned c =
      none ∧
    retryOf (requeue_commit_locked (handleCmd st now ["DISPATCH", c]).st c) c =
      RETRY_MAX := by
  have hsome : (lookupA st.tasks c).isSome := by
    rw [hcap]
    rfl
  have htasks : (handleCmd st now ["DISPATCH", c]).st.tasks = st.tasks := by
    rw [handleCmd_dispatch]
    exact setdefaultA_eq_self 0 hsome
  have hret : retryOf (handleCmd st now ["DISPATCH", c]).st c = RETRY_MAX := by
    show (lookupA (handleCmd st now ["DISPATCH", c]).st.tasks c).getD 0 = RETRY_MAX
    rw [htasks, hcap]
    rfl
  have hcap' : RETRY_MAX ≤ retryOf (handleCmd st now ["DISPATCH", c]).st c := by
    rw [hret]
  refine ⟨fun st' op d => step_tasks_facts st' op d, ?_, ?_, ?_, ?_, ?_, ?_⟩
  · rw [handleCmd_dispatch]
  · rfl
  · rw [htasks, hcap]
  · rw [requeue_eq_at_cap _ c hcap']
    rfl
  · rw [requeue_eq_at_cap _ c hcap']
    exact lookupA_removeA_self _ _
  · rw [retryOf_requeue, if_pos rfl, if_pos hcap', hret]

/-- Concrete instance of `task_records_persistent`: re-dispatching the
dropped revision `c1` queues it again but grants no new retries. -/
theorem task_records_persistent_witness :
    (handleCmd ⟨[], [], [], [], [("c1", 3)], []⟩ 7 ["DISPATCH", "c1"]).reply =
      HReply.msg "QUEUED" ∧
    retryOf (requeue_commit_locked
      (handleCmd ⟨[], [], [], [], [("c1", 3)], []⟩ 7 ["DISPATCH", "c1"]).st "c1") "c1" =
      RETRY_MAX := by
  obtain ⟨-, h2, -, -, -, -, h7⟩ := task_records_persistent
    ⟨[], [], [], [], [("c1", 3)], []⟩ "c1" 7 (by decide)
  exact ⟨h2, h7⟩

end MiniCI

namespace MiniCI

theorem keys_append {α β : Type} [DecidableEq α] (l₁ l₂ : List (α × β)) :
    keys (l₁ ++ l₂) = keys l₁ ++ keys l₂ := by
  simp [keys]

theorem nodup_append_sing {α : Type} {l : List α} {a : α} (h : l.Nodup) (ha : a ∉ l) :
    (l ++ [a]).Nodup := by
  rw [List.nodup_append]
  refine ⟨h, List.nodup_singleton a, ?_⟩
  intro x hx hx1
  rw [List.mem_singleton] at hx1
  subst hx1
  exact ha hx

/-- The rotated ring returned by the probe loop is a rotation of its input. -/
theorem pickLoop_ring_rotate (runners : List (Rid × RunnerMeta)) :
    ∀ (k : Nat) (ring : List Rid), ∃ j, (pickLoop runners k ring).2 = ring.rotate j := by
  intro k
  induction k with
  | zero => exact fun ring => ⟨0, (ring.rotate_zero).symm⟩
  | succ k ih =>
    intro ring
    cases ring with
    | nil => exact ⟨0, by simp [pickLoop, List.rotate_nil]⟩
    | cons rid rest =>
      by_cases hi : idleIn runners rid
      · refine ⟨1, ?_⟩
        simp only [pickLoop, if_pos hi]
        rw [List.rotate_cons_succ, List.rotate_zero]
      · obtain ⟨j, hj⟩ := ih (rest ++ [rid])
        refine ⟨j + 1, ?_⟩
        simp only [pickLoop, if_neg hi]
        rw [List.rotate_cons_succ]
        exact hj

theorem pick_ring_rotate (st : DispatcherState) :
    ∃ j, (pick_idle_runner_rr st).2.runner_ring = st.runner_ring.rotate j := by
  by_cases he : st.runner_ring.isEmpty
  · refine ⟨0, ?_⟩
    simp only [pick_idle_runner_rr, if_pos he, List.rotate_zero]
  · obtain ⟨j, hj⟩ :=
      pickLoop_ring_rotate st.runners st.runner_ring.length st.runner_ring
    refine ⟨j, ?_⟩
    simp only [pick_idle_runner_rr, if_neg he]
    exact hj

/-- The synchronisation invariant between the runner ring and the runner
table: no duplicates on either side and the same key set. -/
def RingSync (st : DispatcherState) : Prop :=
  st.runner_ring.Nodup ∧ (keys st.runners).Nodup ∧
    ∀ r : Rid, r ∈ st.runner_ring ↔ r ∈ keys st.runners

theorem fold_requeue_rr (cs : List String) (st : DispatcherState) :
    (cs.foldl requeue_commit_locked st).runners = st.runners ∧
    (cs.foldl requeue_commit_locked st).runner_ring = st.runner_ring := by
  induction cs generalizing st with
  | nil => exact ⟨rfl, rfl⟩
  | cons c cs ih =>
    rw [List.foldl_cons]
    obtain ⟨i1, i2⟩ := ih (requeue_commit_locked st c)
    obtain ⟨r1, r2, -⟩ := requeue_other_fields st c
    exact ⟨i1.trans r1, i2.trans r2⟩

theorem evict_runner_rr (st : DispatcherState) (rid : Rid) :
    (evict_runner st rid).runners = removeA st.runners rid ∧
    (evict_runner st rid).runner_ring = eraseFirst st.runner_ring rid := by
  obtain ⟨f1, f2⟩ :=
    fold_requeue_rr ((st.assigned.filter fun p => p.2 = rid).map Prod.fst) st
  constructor
  · show removeA (((st.assigned.filter fun p => p.2 = rid).map Prod.fst).foldl
      requeue_commit_locked st).runners rid = _
    rw [f1]
  · show eraseFirst (((st.assigned.filter fun p => p.2 = rid).map Prod.fst).foldl
      requeue_commit_locked st).runner_ring rid = _
    rw [f2]

theorem ringSync_register (st : DispatcherState) (h : String) (p : Int) (n : Nat)
    (hs : RingSync st) : RingSync (register_runner st h p n) := by
  by_cases hr : (lookupA st.runners (h, p)).isSome
  · rw [register_noop st h p n hr]
    exact hs
  · obtain ⟨hn1, hn2, hm⟩ := hs
    have hrid : (h, p) ∉ keys st.runners := by
      rw [mem_keys_iff_lookupA]
      simpa using hr
    have hring : (h, p) ∉ st.runner_ring := fun hx => hrid ((hm _).mp hx)
    have e1 : (register_runner st h p n).runners =
        st.runners ++ [((h, p), ⟨false, n⟩)] := by
      simp only [register_runner, if_neg hr]
    have e2 : (register_runner st h p n).runner_ring =
        st.runner_ring ++ [(h, p)] := by
      simp only [register_runner, if_neg hr]
    refine ⟨?_, ?_, ?_⟩
    · rw [e2]
      exact nodup_append_sing hn1 hring
    · rw [e1, keys_append]
      exact nodup_append_sing hn2 hrid
    · intro r
      rw [e1, e2, keys_append, List.mem_append, List.mem_append]
      show _ ↔ r ∈ keys st.runners ∨ r ∈ keys [((h, p), (⟨false, n⟩ : RunnerMeta))]
      have : keys [((h, p), (⟨false, n⟩ : RunnerMeta))] = [(h, p)] := rfl
      rw [this, hm r]

theorem ringSync_evict (st : DispatcherState) (rid : Rid) (h : RingSync st) :
    RingSync (evict_runner st rid) := by
  obtain ⟨hn1, hn2, hm⟩ := h
  obtain ⟨e1, e2⟩ := evict_runner_rr st rid
  refine ⟨?_, ?_, ?_⟩
  · rw [e2]
    exact nodup_eraseFirst rid hn1
  · rw [e1]
    show (keys (removeA st.runners rid)).Nodup
    rw [keys_removeA]
    exact hn2.filter _
  · intro r
    rw [e1, e2, mem_eraseFirst_of_nodup hn1]
    show _ ↔ r ∈ keys (removeA st.runners rid)
    rw [keys_removeA, List.mem_filter, hm r]
    simp [decide_eq_true_eq]

theorem ringSync_pick (st : DispatcherState) (h : RingSync st) :
    RingSync (pick_idle_runner_rr st).2 := by
  obtain ⟨j, hj⟩ := pick_ring_rotate st
  have hr : (pick_idle_runner_rr st).2.runners = st.runners :=
    (pickRR_fields st).2.2.2.1
  obtain ⟨hn1, hn2, hm⟩ := h
  refine ⟨?_, ?_, ?_⟩
  · rw [hj]
    exact List.nodup_rotate.mpr hn1
  · rw [hr]
    exact hn2
  · intro r
    rw [hj, hr, List.mem_rotate]
    exact hm r

theorem keys_requeue (st : DispatcherState) (c : String) :
    keys (requeue_commit_locked st c).runners = keys st.runners := by
  obtain ⟨r1, -, -⟩ := requeue_other_fields st c
  rw [r1]

theorem ringSync_requeue (st : DispatcherState) (c : String) (h : RingSync st) :
    RingSync (requeue_commit_locked st c) := by
  obtain ⟨r1, r2, -⟩ := requeue_other_fields st c
  obtain ⟨hn1, hn2, hm⟩ := h
  exact ⟨by rw [r2]; exact hn1, by rw [r1]; exact hn2,
    fun r => by rw [r1, r2]; exact hm r⟩

theorem ringSync_updateA_runners (st : DispatcherState) (rid : Rid)
    (f : RunnerMeta → RunnerMeta) (h : RingSync st) :
    RingSync ⟨updateA st.runners rid f, st.runner_ring, st.pending, st.assigned,
      st.tasks, st.commits⟩ := by
  obtain ⟨hn1, hn2, hm⟩ := h
  refine ⟨hn1, ?_, ?_⟩
  · show (keys (updateA st.runners rid f)).Nodup
    rw [keys_updateA]
    exact hn2
  · intro r
    show _ ↔ r ∈ keys (updateA st.runners rid f)
    rw [keys_updateA]
    exact hm r

theorem step_ring_sync (st : DispatcherState) (op : Op) (h : RingSync st) :
    RingSync (step st op) := by
  cases op with
  | register hh p n => exact ringSync_register st hh p n h
  | heartbeat hh p n =>
    exact ringSync_updateA_runners st (hh, p) (fun m => { m with last_seen := n }) h
  | setBusy rid b =>
    exact ringSync_updateA_runners st rid (fun m => { m with busy := b }) h
  | dispatch c n => exact h
  | result c s sec n =>
    cases hrid : lookupA st.assigned c with
    | none =>
      have e : step st (.result c s sec n) =
          ⟨st.runners, st.runner_ring,
           st.pending, removeA st.assigned c, st.tasks,
           updateA (setdefaultA st.commits c ({} : Timeline)) c
             (fun t => { t with completed_at := some n })⟩ := by
        show resultStep st c n = _
        simp only [resultStep, hrid]
      rw [e]
      obtain ⟨hn1, hn2, hm⟩ := h
      exact ⟨hn1, hn2, hm⟩
    | some r0 =>
      have e : step st (.result c s sec n) =
          ⟨updateA st.runners r0 (fun m => { m with busy := false }), st.runner_ring,
           st.pending, removeA st.assigned c, st.tasks,
           updateA (setdefaultA st.commits c ({} : Timeline)) c
             (fun t => { t with completed_at := some n })⟩ := by
        show resultStep st c n = _
        simp only [resultStep, hrid]
      rw [e]
      obtain ⟨hn1, hn2, hm⟩ := h
      refine ⟨hn1, ?_, ?_⟩
      · show (keys (updateA st.runners r0 _)).Nodup
        rw [keys_updateA]
        exact hn2
      · intro r
        show _ ↔ r ∈ keys (updateA st.runners r0 _)
        rw [keys_updateA]
        exact hm r
  | evict rid => exact ringSync_evict st rid h
  | pickRR => exact ringSync_pick st h
  | assignCycle rid outcome n =>
    cases hp : st.pending with
    | nil =>
      rw [step_assignCycle_nil st rid outcome n hp]
      exact h
    | cons c rest =>
      obtain ⟨hn1, hn2, hm⟩ := h
      have h1 : RingSync ⟨st.runners, st.runner_ring, rest, st.assigned,
          st.tasks, st.commits⟩ := ⟨hn1, hn2, hm⟩
      cases outcome with
      | ok =>
        rw [step_assignCycle_ok st rid n c rest hp]
        exact ⟨hn1, hn2, hm⟩
      | rejected =>
        rw [step_assignCycle_rejected st rid n c rest hp]
        exact ringSync_requeue _ c
          (ringSync_updateA_runners _ rid (fun m => { m with busy := false }) h1)
      | connfail =>
        rw [step_assignCycle_connfail st rid n c rest hp]
        exact ringSync_requeue _ c (ringSync_evict _ rid h1)

theorem foldl_step_ring_sync (ops : List Op) (st : DispatcherState) (h : RingSync st) :
    RingSync (ops.foldl step st) := by
  induction ops generalizing st with
  | nil => exact h
  | cons op ops ih => exact ih (step st op) (step_ring_sync st op h)

theorem exec_ring_sync (ops : List Op) : RingSync (exec ops) :=
  foldl_step_ring_sync ops initState
    ⟨List.nodup_nil, List.nodup_nil, by simp [initState, keys]⟩

end MiniCI

namespace MiniCI

/-- **C8**: after any sequence of scheduler events starting from the empty
state (registers, heartbeats, dispatches, results, evictions, and the
assigner's probe/busy/dispatch-cycle events), the runner ring has no
duplicates, its entry set equals the key set of the runner table, and the
two structures have equal size. -/
theorem ring_table_agree (ops : List Op) :
    (exec ops).runner_ring.Nodup ∧
    (∀ r : Rid, r ∈ (exec ops).runner_ring ↔ r ∈ keys (exec ops).runners) ∧
    (exec ops).runner_ring.length = (exec ops).runners.length := by
  obtain ⟨h1, h2, h3⟩ := exec_ring_sync ops
  refine ⟨h1, h3, ?_⟩
  have hperm : (exec ops).runner_ring.Perm (keys (exec ops).runners) :=
    (List.perm_ext_iff_of_nodup h1 h2).mpr h3
  rw [hperm.length_eq]
  show (List.map Prod.fst (exec ops).runners).length = _
  rw [List.length_map]

end MiniCI

namespace MiniCI

theorem mem_keys_removeA {α β : Type} [DecidableEq α] {l : List (α × β)} {a k : α} :
    a ∈ keys (removeA l k) ↔ a ∈ keys l ∧ a ≠ k := by
  rw [keys_removeA, List.mem_filter]
  simp [decide_eq_true_eq]

/-- Per-revision mutual exclusion between the pending queue and the
assignment map, together with the de-duplication facts that keep it
inductive. -/
def AtMostOne (st : DispatcherState) : Prop :=
  st.pending.Nodup ∧ (keys st.assigned).Nodup ∧
    ∀ c, ¬(c ∈ st.pending ∧ c ∈ keys st.assigned)

theorem atMostOne_of_eq {st st' : DispatcherState} (h : AtMostOne st)
    (hp : st'.pending = st.pending) (ha : st'.assigned = st.assigned) :
    AtMostOne st' := by
  obtain ⟨h1, h2, h3⟩ := h
  refine ⟨?_, ?_, ?_⟩
  · rw [hp]; exact h1
  · show (keys st'.assigned).Nodup
    rw [ha]; exact h2
  · intro c hc
    rw [hp] at hc
    refine h3 c ⟨hc.1, ?_⟩
    have := hc.2
    rw [show keys st'.assigned = keys st.assigned from by rw [ha]] at this
    exact this

theorem atMostOne_requeue (st : DispatcherState) (c : String) (h : AtMostOne st)
    (hc : c ∉ st.pending) :
    AtMostOne (requeue_commit_locked st c) ∧
    ∀ d, d ∈ (requeue_commit_locked st c).pending → d ∈ st.pending ∨ d = c := by
  obtain ⟨h1, h2, h3⟩ := h
  have hben : (keys (removeA st.assigned c)).Nodup := by
    rw [keys_removeA]
    exact h2.filter _
  by_cases hcap : RETRY_MAX ≤ retryOf st c
  · rw [requeue_eq_at_cap st c hcap]
    refine ⟨⟨h1, hben, ?_⟩, fun d hd => Or.inl hd⟩
    intro d hd
    rw [mem_keys_removeA] at hd
    exact h3 d ⟨hd.1, hd.2.1⟩
  · rw [requeue_eq_below_cap st c hcap]
    refine ⟨⟨nodup_append_sing h1 hc, hben, ?_⟩, ?_⟩
    · intro d hd
      obtain ⟨hd1, hd2⟩ := hd
      rw [mem_keys_removeA] at hd2
      rw [List.mem_append, List.mem_singleton] at hd1
      rcases hd1 with hd1 | hd1
      · exact h3 d ⟨hd1, hd2.1⟩
      · exact hd2.2 hd1
    · intro d hd
      rw [List.mem_append, List.mem_singleton] at hd
      exact hd

theorem atMostOne_fold (cs : List String) (st : DispatcherState) (h : AtMostOne st)
    (hnd : cs.Nodup) (hcs : ∀ c ∈ cs, c ∉ st.pending) :
    AtMostOne (cs.foldl requeue_commit_locked st) ∧
    ∀ d, d ∈ (cs.foldl requeue_commit_locked st).pending → d ∈ st.pending ∨ d ∈ cs := by
  induction cs generalizing st with
  | nil => exact ⟨h, fun d hd => Or.inl hd⟩
  | cons c cs ih =>
    rw [List.foldl_cons]
    rw [List.nodup_cons] at hnd
    have hc : c ∉ st.pending := hcs c (List.mem_cons_self c cs)
    obtain ⟨ha1, hsub1⟩ := atMostOne_requeue st c h hc
    have hguard : ∀ c' ∈ cs, c' ∉ (requeue_commit_locked st c).pending := by
      intro c' hc' hmem
      rcases hsub1 c' hmem with hd | hd
      · exact hcs c' (List.mem_cons_of_mem c hc') hd
      · exact hnd.1 (hd ▸ hc')
    obtain ⟨ha2, hsub2⟩ := ih (requeue_commit_locked st c) ha1 hnd.2 hguard
    refine ⟨ha2, fun d hd => ?_⟩
    rcases hsub2 d hd with hd1 | hd1
    · rcases hsub1 d hd1 with hd2 | hd2
      · exact Or.inl hd2
      · exact Or.inr (hd2 ▸ List.mem_cons_self c cs)
    · exact Or.inr (List.mem_cons_of_mem c hd1)

theorem victims_facts (st : DispatcherState) (rid : Rid) (h2 : (keys st.assigned).Nodup) :
    ((st.assigned.filter fun p => p.2 = rid).map Prod.fst).Nodup ∧
    ∀ c ∈ (st.assigned.filter fun p => p.2 = rid).map Prod.fst, c ∈ keys st.assigned := by
  have hsub : ((st.assigned.filter fun p => p.2 = rid).map Prod.fst).Sublist
      (keys st.assigned) := (st.assigned.filter_sublist).map Prod.fst
  exact ⟨hsub.nodup h2, fun c hc => hsub.mem hc⟩

theorem atMostOne_evict (st : DispatcherState) (rid : Rid) (h : AtMostOne st) :
    AtMostOne (evict_runner st rid) ∧
    ∀ d, d ∈ (evict_runner st rid).pending → d ∈ st.pending ∨ d ∈ keys st.assigned := by
  obtain ⟨hv1, hv2⟩ := victims_facts st rid h.2.1
  have hguard : ∀ c ∈ (st.assigned.filter fun p => p.2 = rid).map Prod.fst,
      c ∉ st.pending := by
    intro c hc hp
    exact h.2.2 c ⟨hp, hv2 c hc⟩
  obtain ⟨ha, hsub⟩ :=
    atMostOne_fold ((st.assigned.filter fun p => p.2 = rid).map Prod.fst) st h hv1 hguard
  constructor
  · exact atMostOne_of_eq ha rfl rfl
  · intro d hd
    rcases hsub d hd with hd1 | hd1
    · exact Or.inl hd1
    · exact Or.inr (hv2 d hd1)

/-- States reachable when `DISPATCH` is only issued for revisions that are
neither pending nor assigned (no duplicate submission of a live revision). -/
inductive ReachableND : DispatcherState → Prop
  | init : ReachableND initState
  | next (st : DispatcherState) (op : Op) (h : ReachableND st)
      (hguard : ∀ c n, op = .dispatch c n →
        c ∉ st.pending ∧ lookupA st.assigned c = none) :
      ReachableND (step st op)

theorem atMostOne_step (st : DispatcherState) (op : Op) (h : AtMostOne st)
    (hguard : ∀ c n, op = .dispatch c n →
      c ∉ st.pending ∧ lookupA st.assigned c = none) :
    AtMostOne (step st op) := by
  cases op with
  | register hh p n =>
    obtain ⟨f1, f2, -, -⟩ := register_runner_fields st hh p n
    exact atMostOne_of_eq h f1 f2
  | heartbeat hh p n => exact atMostOne_of_eq h rfl rfl
  | setBusy rid b => exact atMostOne_of_eq h rfl rfl
  | pickRR =>
    obtain ⟨f1, f2, -, -, -⟩ := pickRR_fields st
    exact atMostOne_of_eq h f1 f2
  | dispatch c n =>
    obtain ⟨hc1, hc2⟩ := hguard c n rfl
    obtain ⟨h1, h2, h3⟩ := h
    have hck : c ∉ keys st.assigned := lookupA_eq_none_iff.mp hc2
    refine ⟨nodup_append_sing h1 hc1, h2, ?_⟩
    intro d hd
    obtain ⟨hd1, hd2⟩ := hd
    rw [show (step st (.dispatch c n)).pending = st.pending ++ [c] from rfl,
      List.mem_append, List.mem_singleton] at hd1
    rcases hd1 with hd1 | hd1
    · exact h3 d ⟨hd1, hd2⟩
    · exact hck (hd1 ▸ hd2)
  | result c s sec n =>
    obtain ⟨h1, h2, h3⟩ := h
    have hben : (keys (removeA st.assigned c)).Nodup := by
      rw [keys_removeA]
      exact h2.filter _
    have hpend : (resultStep st c n).pending = st.pending := (resultStep_fields st c n).1
    have hasg : (resultStep st c n).assigned = removeA st.assigned c := by
      cases hrid : lookupA st.assigned c <;> simp only [resultStep, hrid]
    refine ⟨?_, ?_, ?_⟩
    · rw [show (step st (.result c s sec n)).pending = (resultStep st c n).pending
        from rfl, hpend]
      exact h1
    · show (keys (step st (.result c s sec n)).assigned).Nodup
      rw [show (step st (.result c s sec n)).assigned = (resultStep st c n).assigned
        from rfl, hasg]
      exact hben
    · intro d hd
      obtain ⟨hd1, hd2⟩ := hd
      rw [show (step st (.result c s sec n)).pending = (resultStep st c n).pending
        from rfl, hpend] at hd1
      rw [show keys (step st (.result c s sec n)).assigned =
        keys (resultStep st c n).assigned from rfl] at hd2
      rw [show keys (resultStep st c n).assigned = keys (removeA st.assigned c)
        from by rw [hasg]] at hd2
      rw [mem_keys_removeA] at hd2
      exact h3 d ⟨hd1, hd2.1⟩
  | evict rid => exact (atMostOne_evict st rid h).1
  | assignCycle rid outcome n =>
    cases hp : st.pending with
    | nil =>
      rw [step_assignCycle_nil st rid outcome n hp]
      exact h
    | cons c rest =>
      obtain ⟨h1, h2, h3⟩ := h
      rw [hp, List.nodup_cons] at h1
      have hcrest : c ∉ rest := h1.1
      have hrest : ∀ d, d ∈ rest → d ∈ st.pending := by
        intro d hd
        rw [hp]
        exact List.mem_cons_of_mem c hd
      have hck : c ∉ keys st.assigned := by
        intro hk
        exact h3 c ⟨by rw [hp]; exact List.mem_cons_self c rest, hk⟩
      have hst1 : AtMostOne ⟨st.runners, st.runner_ring, rest, st.assigned,
          st.tasks, st.commits⟩ := by
        refine ⟨h1.2, h2, ?_⟩
        intro d hd
        exact h3 d ⟨hrest d hd.1, hd.2⟩
      cases outcome with
      | ok =>
        rw [step_assignCycle_ok st rid n c rest hp]
        have hkeys : keys (insertA st.assigned c rid) = keys st.assigned ++ [c] := by
          rw [keys_insertA]
          rw [if_neg]
          intro hk
          exact hck (mem_keys_iff_lookupA.mpr hk)
        refine ⟨h1.2, ?_, ?_⟩
        · show (keys (insertA st.assigned c rid)).Nodup
          rw [hkeys]
          exact nodup_append_sing h2 hck
        · intro d hd
          obtain ⟨hd1, hd2⟩ := hd
          rw [show keys (⟨st.runners, st.runner_ring, rest, insertA st.assigned c rid,
            st.tasks, updateA (setdefaultA st.commits c ({} : Timeline)) c
              (fun t => { t with assigned_at := some n, runner := some rid })⟩ :
            DispatcherState).assigned = keys (insertA st.assigned c rid) from rfl,
            hkeys, List.mem_append, List.mem_singleton] at hd2
          rcases hd2 with hd2 | hd2
          · exact h3 d ⟨hrest d hd1, hd2⟩
          · exact hcrest (hd2 ▸ hd1)
      | rejected =>
        rw [step_assignCycle_rejected st rid n c rest hp]
        have hsb : AtMostOne (set_busy ⟨st.runners, st.runner_ring, rest, st.assigned,
            st.tasks, st.commits⟩ rid false) := atMostOne_of_eq hst1 rfl rfl
        exact (atMostOne_requeue _ c hsb hcrest).1
      | connfail =>
        rw [step_assignCycle_connfail st rid n c rest hp]
        obtain ⟨he, hesub⟩ := atMostOne_evict
          ⟨st.runners, st.runner_ring, rest, st.assigned, st.tasks, st.commits⟩ rid hst1
        have hcne : c ∉ (evict_runner ⟨st.runners, st.runner_ring, rest, st.assigned,
            st.tasks, st.commits⟩ rid).pending := by
          intro hmem
          rcases hesub c hmem with hd | hd
          · exact hcrest hd
          · exact hck hd
        exact (atMostOne_requeue _ c he hcne).1

theorem reachableND_atMostOne {st : DispatcherState} (h : ReachableND st) :
    AtMostOne st := by
  induction h with
  | init => exact ⟨List.nodup_nil, List.nodup_nil, by simp [initState, keys]⟩
  | next st op hr hguard ih => exact atMostOne_step st op ih hguard

end MiniCI

namespace MiniCI

/-- **C3** (counterexample): after `DISPATCH c1` and a successful assignment,
`c1` sits in the assignment map and not in the pending queue; a second
`DISPATCH c1` — issued while `c1` is in the assignment map — leaves it
present in **both** structures, because the DISPATCH branch enqueues
unconditionally.  This is not the transient assigner window: the assigner
cycle completed before the second dispatch. -/
theorem dispatch_assigned_counterexample :
    (lookupA (exec [.dispatch "c1" 1, .assignCycle ("h", 1) .ok 2]).assigned
      "c1").isSome ∧
    "c1" ∉ (exec [.dispatch "c1" 1, .assignCycle ("h", 1) .ok 2]).pending ∧
    "c1" ∈ (exec [.dispatch "c1" 1, .assignCycle ("h", 1) .ok 2,
      .dispatch "c1" 3]).pending ∧
    (lookupA (exec [.dispatch "c1" 1, .assignCycle ("h", 1) .ok 2,
      .dispatch "c1" 3]).assigned "c1").isSome := by
  decide

/-- **C3** (amended): provided `DISPATCH` is never issued for a revision that
is currently pending or currently assigned, every reachable state keeps
each revision in at most one of the pending queue and the assignment map
(the assigner's pop-then-place window is modelled atomically by the
`assignCycle` event, matching the claim's transient-window exception).  The
code itself does not enforce the proviso: re-dispatching an in-flight
revision puts it in both structures, as the counterexample shows. -/
theorem pending_assigned_exclusive (st : DispatcherState) (h : ReachableND st)
    (c : String) :
    ¬(c ∈ st.pending ∧ (lookupA st.assigned c).isSome) := by
  obtain ⟨-, -, hdisj⟩ := reachableND_atMostOne h
  intro hc
  exact hdisj c ⟨hc.1, mem_keys_iff_lookupA.mpr hc.2⟩

/-- Concrete instance of `pending_assigned_exclusive` on the guarded run
`DISPATCH c1; assign c1 OK`, discharging the reachability hypothesis. -/
theorem pending_assigned_exclusive_witness :
    ¬("c1" ∈ (step (step initState (.dispatch "c1" 1))
        (.assignCycle ("h", 1) .ok 2)).pending ∧
      (lookupA (step (step initState (.dispatch "c1" 1))
        (.assignCycle ("h", 1) .ok 2)).assigned "c1").isSome) := by
  have r1 : ReachableND (step initState (.dispatch "c1" 1)) := by
    refine ReachableND.next initState (.dispatch "c1" 1) ReachableND.init ?_
    intro c n hop
    cases hop
    exact ⟨by decide, by decide⟩
  have r2 : ReachableND (step (step initState (.dispatch "c1" 1))
      (.assignCycle ("h", 1) .ok 2)) := by
    refine ReachableND.next _ (.assignCycle ("h", 1) .ok 2) r1 ?_
    intro c n hop
    cases hop
  exact pending_assigned_exclusive _ r2 "c1"

end MiniCI

namespace MiniCI

theorem mem_of_getElem_opt {α : Type} {l : List α} {n : Nat} {a : α}
    (h : l[n]? = some a) : a ∈ l := by
  obtain ⟨hlt, he⟩ := List.getElem?_eq_some.mp h
  exact he ▸ l.getElem_mem hlt

theorem idleIn_iff (runners : List (Rid × RunnerMeta)) (rid : Rid) :
    idleIn runners rid = true ↔
      ∃ m, lookupA runners rid = some m ∧ m.busy = false := by
  cases h : lookupA runners rid with
  | none => simp [idleIn, h]
  | some m => simp [idleIn, h]

theorem busy_of_idleIn_false {runners : List (Rid × RunnerMeta)} {rid : Rid}
    {m : RunnerMeta} (hl : lookupA runners rid = some m)
    (hf : idleIn runners rid = false) : m.busy = true := by
  simp only [idleIn, hl] at hf
  simpa using hf

/-- Full characterisation of the probe loop of `pick_idle_runner_rr` on a
fuel `k` not exceeding the ring length: on failure it has rotated the ring
by exactly `k` (one per probe) and every probed entry was non-idle; on
success it returns the first idle entry, having rotated the ring one past
its position. -/
theorem pickLoop_spec (runners : List (Rid × RunnerMeta)) :
    ∀ (k : Nat) (ring : List Rid), k ≤ ring.length →
      ((pickLoop runners k ring).1 = none →
        (pickLoop runners k ring).2 = ring.rotate k ∧
        ∀ r ∈ ring.take k, idleIn runners r = false) ∧
      (∀ rid, (pickLoop runners k ring).1 = some rid →
        idleIn runners rid = true ∧
        ∃ i, i < k ∧ ring[i]? = some rid ∧
          (∀ j, j < i → ∀ r, ring[j]? = some r → idleIn runners r = false) ∧
          (pickLoop runners k ring).2 = ring.rotate (i + 1)) := by
  intro k
  induction k with
  | zero =>
    intro ring hk
    constructor
    · intro hnone
      exact ⟨(ring.rotate_zero).symm, by simp⟩
    · intro rid hr
      cases hr
  | succ k ih =>
    intro ring hk
    cases ring with
    | nil => simp at hk
    | cons rid0 rest =>
      have hkr : k ≤ rest.length := by
        simpa using hk
      by_cases hidle : idleIn runners rid0 = true
      · have e1 : pickLoop runners (k + 1) (rid0 :: rest) = (some rid0, rest ++ [rid0]) := by
          simp only [pickLoop, if_pos hidle]
        rw [e1]
        constructor
        · intro hnone
          cases hnone
        · intro rid hr
          have hr0 : rid0 = rid := by injection hr
          subst hr0
          refine ⟨hidle, 0, Nat.succ_pos k, List.getElem?_cons_zero, ?_, ?_⟩
          · intro j hj
            omega
          · rw [List.rotate_cons_succ, List.rotate_zero]
      · have hfalse : idleIn runners rid0 = false := by
          simpa using hidle
        have e1 : pickLoop runners (k + 1) (rid0 :: rest) =
            pickLoop runners k (rest ++ [rid0]) := by
          simp only [pickLoop, if_neg hidle]
        have hk' : k ≤ (rest ++ [rid0]).length := by
          rw [List.length_append]
          omega
        obtain ⟨ihn, ihs⟩ := ih (rest ++ [rid0]) hk'
        rw [e1]
        constructor
        · intro hnone
          obtain ⟨hring, htake⟩ := ihn hnone
          constructor
          · rw [hring, List.rotate_cons_succ]
          · intro r hr
            rw [List.take_succ_cons, List.mem_cons] at hr
            rcases hr with rfl | hr
            · exact hfalse
            · apply htake
              rw [List.take_append_of_le_length hkr]
              exact hr
        · intro rid hr
          obtain ⟨hi, i', hi'k, hget, hprev, hring⟩ := ihs rid hr
          have hi'lt : i' < rest.length := by omega
          refine ⟨hi, i' + 1, by omega, ?_, ?_, ?_⟩
          · rw [List.getElem?_cons_succ, ← hget]
            exact (List.getElem?_append_left hi'lt).symm
          · intro j hj r hr2
            cases j with
            | zero =>
              rw [List.getElem?_cons_zero] at hr2
              have : rid0 = r := by injection hr2
              subst this
              exact hfalse
            | succ j' =>
              rw [List.getElem?_cons_succ] at hr2
              apply hprev j' (by omega) r
              rw [List.getElem?_append_left (by omega : j' < rest.length)]
              exact hr2
          · rw [hring, List.rotate_cons_succ]

/-- **C4**: `pick_idle_runner_rr` probes at most `N` ring positions
(`N` = current ring length), rotating the ring by one per probe — so a
successful probe at position `i` leaves the ring rotated by `i + 1`, and an
unsuccessful full scan leaves the ring rotated by `N`, i.e. back in its
original order; it returns the first probed runner whose busy flag is
false, and it returns `none` exactly when the ring is empty or every
runner in it is busy.  Nothing besides the ring is modified. -/
theorem pick_idle_rr_correct (st : DispatcherState)
    (h : ∀ rid ∈ st.runner_ring, (lookupA st.runners rid).isSome) :
    ((pick_idle_runner_rr st).2.runners = st.runners ∧
     (pick_idle_runner_rr st).2.pending = st.pending ∧
     (pick_idle_runner_rr st).2.assigned = st.assigned) ∧
    ((pick_idle_runner_rr st).1 = none ↔
      st.runner_ring = [] ∨ ∀ rid ∈ st.runner_ring, ∃ m,
        lookupA st.runners rid = some m ∧ m.busy = true) ∧
    ((pick_idle_runner_rr st).1 = none →
      (pick_idle_runner_rr st).2.runner_ring = st.runner_ring) ∧
    (∀ rid, (pick_idle_runner_rr st).1 = some rid →
      idleIn st.runners rid = true ∧
      ∃ i, i < st.runner_ring.length ∧
        st.runner_ring[i]? = some rid ∧
        (∀ j, j < i → ∀ r, st.runner_ring[j]? = some r →
          idleIn st.runners r = false) ∧
        (pick_idle_runner_rr st).2.runner_ring = st.runner_ring.rotate (i + 1)) := by
  obtain ⟨fp, fa, -, fr, -⟩ := pickRR_fields st
  refine ⟨⟨fr, fp, fa⟩, ?_⟩
  by_cases he : st.runner_ring.isEmpty
  · have hnil : st.runner_ring = [] := List.isEmpty_iff.mp he
    have e : pick_idle_runner_rr st = (none, st) := by
      simp only [pick_idle_runner_rr, if_pos he]
    rw [e]
    refine ⟨?_, fun _ => rfl, ?_⟩
    · simp [hnil]
    · intro rid hr
      cases hr
  · have hnil : st.runner_ring ≠ [] := by
      intro hx
      rw [hx] at he
      exact he rfl
    have e1 : (pick_idle_runner_rr st).1 =
        (pickLoop st.runners st.runner_ring.length st.runner_ring).1 := by
      simp only [pick_idle_runner_rr, if_neg he]
    have e2 : (pick_idle_runner_rr st).2.runner_ring =
        (pickLoop st.runners st.runner_ring.length st.runner_ring).2 := by
      simp only [pick_idle_runner_rr, if_neg he]
    obtain ⟨specn, specs⟩ :=
      pickLoop_spec st.runners st.runner_ring.length st.runner_ring (Nat.le_refl _)
    refine ⟨?_, ?_, ?_⟩
    · constructor
      · intro hnone
        rw [e1] at hnone
        obtain ⟨-, htake⟩ := specn hnone
        rw [List.take_length] at htake
        refine Or.inr fun rid hrid => ?_
        obtain ⟨m, hm⟩ := Option.isSome_iff_exists.mp (h rid hrid)
        exact ⟨m, hm, busy_of_idleIn_false hm (htake rid hrid)⟩
      · intro hcase
        rcases hcase with hcase | hcase
        · exact absurd hcase hnil
        · rw [e1]
          cases hp : (pickLoop st.runners st.runner_ring.length st.runner_ring).1 with
          | none => rfl
          | some rid =>
            obtain ⟨hid, i, -, hget, -, -⟩ := specs rid hp
            obtain ⟨m, hm, hb⟩ := (idleIn_iff st.runners rid).mp hid
            obtain ⟨m', hm', hb'⟩ := hcase rid (mem_of_getElem_opt hget)
            rw [hm] at hm'
            have : m = m' := by injection hm'
            subst this
            rw [hb] at hb'
            cases hb'
    · intro hnone
      rw [e1] at hnone
      obtain ⟨hring, -⟩ := specn hnone
      rw [e2, hring, List.rotate_length]
    · intro rid hr
      rw [e1] at hr
      obtain ⟨hid, i, hik, hget, hprev, hring⟩ := specs rid hr
      exact ⟨hid, i, hik, hget, hprev, by rw [e2, hring]⟩

/-- Concrete instance of `pick_idle_rr_correct` on a two-runner ring whose
head is busy: the pick skips it, returns the second runner, and rotates the
ring by two. -/
theorem pick_idle_rr_correct_witness :
    (pick_idle_runner_rr ⟨[(("a", 1), ⟨true, 0⟩), (("b", 2), ⟨false, 0⟩)],
      [("a", 1), ("b", 2)], [], [], [], []⟩).1 = some ("b", 2) ∧
    (pick_idle_runner_rr ⟨[(("a", 1), ⟨true, 0⟩), (("b", 2), ⟨false, 0⟩)],
      [("a", 1), ("b", 2)], [], [], [], []⟩).2.runner_ring =
      [("a", 1), ("b", 2)].rotate 2 := by
  have h := pick_idle_rr_correct ⟨[(("a", 1), ⟨true, 0⟩), (("b", 2), ⟨false, 0⟩)],
    [("a", 1), ("b", 2)], [], [], [], []⟩ (by decide)
  obtain ⟨-, -, -, hsome⟩ := h
  obtain ⟨-, i, hik, hget, -, hring⟩ := hsome (("b", 2)) (by decide)
  have hi2 : i < 2 := by simpa using hik
  interval_cases i
  · exact absurd hget (by decide)
  · exact ⟨by decide, hring⟩

end MiniCI

namespace MiniCI

/-- The results of `k` successive calls of `pick_idle_runner_rr`, threading
the mutated state from call to call. -/
def pickSeq : DispatcherState → Nat → List (Option Rid)
  | _, 0 => []
  | st, k + 1 => (pick_idle_runner_rr st).1 :: pickSeq (pick_idle_runner_rr st).2 k

/-- The runner sequence produced by an all-idle ring: the head is served and
rotated to the tail each time. -/
def idleSeq : Nat → List Rid → List Rid
  | 0, _ => []
  | _ + 1, [] => []
  | k + 1, r :: rest => r :: idleSeq k (rest ++ [r])

theorem pick_all_idle (st : DispatcherState) (r : Rid) (rest : List Rid)
    (hring : st.runner_ring = r :: rest) (hidle : idleIn st.runners r = true) :
    pick_idle_runner_rr st =
      (some r, ⟨st.runners, rest ++ [r], st.pending, st.assigned, st.tasks,
        st.commits⟩) := by
  have he : ¬st.runner_ring.isEmpty = true := by
    rw [hring]
    simp
  have e1 : pickLoop st.runners st.runner_ring.length st.runner_ring =
      (some r, rest ++ [r]) := by
    rw [hring, List.length_cons]
    simp only [pickLoop, if_pos hidle]
  simp only [pick_idle_runner_rr, if_neg he, e1]

theorem pickSeq_all_idle (k : Nat) :
    ∀ (st : DispatcherState), st.runner_ring ≠ [] →
      (∀ rid ∈ st.runner_ring, idleIn st.runners rid = true) →
      pickSeq st k = (idleSeq k st.runner_ring).map some := by
  induction k with
  | zero =>
    intro st hne hall
    cases st.runner_ring <;> rfl
  | succ k ih =>
    intro st hne hall
    cases hring : st.runner_ring with
    | nil => exact absurd hring hne
    | cons r rest =>
      have hidle : idleIn st.runners r = true := by
        apply hall
        rw [hring]
        exact List.mem_cons_self r rest
      have hp := pick_all_idle st r rest hring hidle
      have e1 : (pick_idle_runner_rr st).1 = some r := by rw [hp]
      have e2 : (pick_idle_runner_rr st).2 =
          ⟨st.runners, rest ++ [r], st.pending, st.assigned, st.tasks, st.commits⟩ := by
        rw [hp]
      rw [pickSeq, e1, e2]
      show some r :: pickSeq _ k = List.map some (idleSeq (k + 1) (r :: rest))
      simp only [idleSeq, List.map_cons]
      congr 1
      apply ih
      · simp
      · intro rid hrid
        apply hall
        rw [hring]
        have : rid ∈ rest ++ [r] := hrid
        rw [List.mem_append, List.mem_singleton] at this
        rcases this with hx | hx
        · exact List.mem_cons_of_mem r hx
        · exact hx ▸ List.mem_cons_self r rest

theorem idleSeq_eq_range (k : Nat) :
    ∀ (l : List Rid), l ≠ [] →
      idleSeq k l = (List.range k).map (fun j => (l.rotate j).headD ("", 0)) := by
  induction k with
  | zero => intro l hl; rfl
  | succ k ih =>
    intro l hl
    cases l with
    | nil => exact absurd rfl hl
    | cons r rest =>
      have htail : idleSeq k (rest ++ [r]) =
          (List.range k).map (fun j => ((rest ++ [r]).rotate j).headD ("", 0)) :=
        ih (rest ++ [r]) (by simp)
      have hmaps : (List.range k).map (fun j => ((rest ++ [r]).rotate j).headD ("", 0)) =
          (List.range k).map (fun j => ((r :: rest).rotate (j + 1)).headD ("", 0)) := by
        refine List.map_congr_left fun j hj => ?_
        rw [List.rotate_cons_succ]
      have hrange : (List.range (k + 1)).map
          (fun j => ((r :: rest).rotate j).headD ("", 0)) =
          ((r :: rest).rotate 0).headD ("", 0) ::
            (List.range k).map (fun j => ((r :: rest).rotate (j + 1)).headD ("", 0)) := by
        rw [List.range_succ_eq_map, List.map_cons, List.map_map]
        rfl
      show r :: idleSeq k (rest ++ [r]) = _
      rw [htail, hmaps, hrange, List.rotate_zero, List.headD_cons]

theorem count_range_mod (n : Nat) (hn : 0 < n) (i : Nat) (hi : i < n) :
    ∀ k : Nat, (List.range k).countP (fun j => j % n == i) =
      k / n + (if i < k % n then 1 else 0) := by
  intro k
  induction k with
  | zero => simp
  | succ k ih =>
    have hr : List.range (k + 1) = List.range k ++ [k] := List.range_succ k
    rw [hr, List.countP_append, ih]
    have hsing : List.countP (fun j => j % n == i) [k] =
        if k % n = i then 1 else 0 := by
      by_cases hk : k % n = i
      · simp [List.countP_cons, beq_iff_eq, hk]
      · simp [List.countP_cons, beq_iff_eq, hk]
    rw [hsing]
    have hdm := Nat.div_add_mod k n
    have hrn : k % n < n := Nat.mod_lt k hn
    by_cases hw : k % n + 1 < n
    · have key : k + 1 = n * (k / n) + (k % n + 1) := by omega
      have e2 : (k + 1) % n = k % n + 1 := by
        rw [key, Nat.mul_add_mod, Nat.mod_eq_of_lt hw]
      have e3 : (k + 1) / n = k / n := by
        rw [key, Nat.mul_add_div hn, Nat.div_eq_of_lt hw]
        omega
      rw [e2, e3]
      split_ifs <;> omega
    · have key : k + 1 = n * (k / n + 1) := by
        rw [Nat.mul_succ]
        omega
      have e2 : (k + 1) % n = 0 := by
        rw [key, Nat.mul_mod_right]
      have e3 : (k + 1) / n = k / n + 1 := by
        rw [key, Nat.mul_div_cancel_left _ hn]
      rw [e2, e3]
      split_ifs <;> omega

theorem count_map_some (l : List Rid) (rid : Rid) :
    (l.map some).count (some rid) = l.count rid := by
  induction l with
  | nil => rfl
  | cons x xs ih =>
    rw [List.map_cons, List.count_cons, List.count_cons, ih]
    simp [beq_iff_eq]

theorem count_map_eq_countP (f : Nat → Rid) (l : List Nat) (rid : Rid) :
    (l.map f).count rid = l.countP (fun j => f j == rid) := by
  induction l with
  | nil => rfl
  | cons x xs ih => simp [List.count_cons, List.countP_cons, ih]

/-- **C5**: on a duplicate-free nonempty ring of `n` runners that are all
idle (their busy flags are false and stay false — picking never writes a
busy flag), `k` successive calls of `pick_idle_runner_rr` return each
runner either `⌊k/n⌋` or `⌈k/n⌉` (= `(k + n - 1) / n`) times. -/
theorem round_robin_fair (st : DispatcherState) (k : Nat) (rid : Rid)
    (hnd : st.runner_ring.Nodup) (hne : st.runner_ring ≠ [])
    (hall : ∀ r ∈ st.runner_ring, idleIn st.runners r = true)
    (hmem : rid ∈ st.runner_ring) :
    (pickSeq st k).count (some rid) = k / st.runner_ring.length ∨
    (pickSeq st k).count (some rid) =
      (k + st.runner_ring.length - 1) / st.runner_ring.length := by
  have hn : 0 < st.runner_ring.length := List.length_pos.mpr hne
  obtain ⟨i, hi, hget⟩ := List.getElem_of_mem hmem
  have h1 : pickSeq st k = (idleSeq k st.runner_ring).map some :=
    pickSeq_all_idle k st hne hall
  have h2 : ((idleSeq k st.runner_ring).map some).count (some rid) =
      (idleSeq k st.runner_ring).count rid := count_map_some _ rid
  have hg : ∀ j : Nat, (st.runner_ring.rotate j).headD ("", 0) =
      st.runner_ring.get ⟨j % st.runner_ring.length, Nat.mod_lt j hn⟩ := by
    intro j
    rw [List.headD_eq_head?_getD, ← List.rotate_mod,
      List.head?_rotate (Nat.mod_lt j hn),
      List.getElem?_eq_getElem (Nat.mod_lt j hn)]
    rfl
  have hiff : ∀ j : Nat,
      (((st.runner_ring.rotate j).headD ("", 0)) == rid) = true ↔
      (j % st.runner_ring.length == i) = true := by
    intro j
    have hgetg : st.runner_ring.get ⟨i, hi⟩ = rid := hget
    rw [beq_iff_eq, beq_iff_eq, hg j, ← hgetg, hnd.get_inj_iff]
    exact Fin.mk_eq_mk
  have h3 : (idleSeq k st.runner_ring).count rid =
      (List.range k).countP (fun j => j % st.runner_ring.length == i) := by
    rw [idleSeq_eq_range k st.runner_ring hne, count_map_eq_countP]
    exact List.countP_congr (fun j hj => hiff j)
  rw [h1, h2, h3, count_range_mod st.runner_ring.length hn i hi k]
  by_cases hcase : i < k % st.runner_ring.length
  · right
    rw [if_pos hcase]
    have hdm := Nat.div_add_mod k st.runner_ring.length
    have hrn : k % st.runner_ring.length < st.runner_ring.length := Nat.mod_lt k hn
    have key : k + st.runner_ring.length - 1 =
        st.runner_ring.length * (k / st.runner_ring.length + 1) +
          (k % st.runner_ring.length - 1) := by
      rw [Nat.mul_succ]
      omega
    rw [key, Nat.mul_add_div hn,
      Nat.div_eq_of_lt (by omega : k % st.runner_ring.length - 1 < st.runner_ring.length)]
  · left
    rw [if_neg hcase]
    omega

/-- Concrete instance of `round_robin_fair`: seven picks on a three-runner
idle ring serve the second runner `⌈7/3⌉ = 3` times. -/
theorem round_robin_fair_witness :
    (pickSeq ⟨[(("a", 1), ⟨false, 0⟩), (("b", 2), ⟨false, 0⟩), (("c", 3), ⟨false, 0⟩)],
      [("a", 1), ("b", 2), ("c", 3)], [], [], [], []⟩ 7).count (some ("b", 2)) = 2 ∨
    (pickSeq ⟨[(("a", 1), ⟨false, 0⟩), (("b", 2), ⟨false, 0⟩), (("c", 3), ⟨false, 0⟩)],
      [("a", 1), ("b", 2), ("c", 3)], [], [], [], []⟩ 7).count (some ("b", 2)) = 3 :=
  round_robin_fair ⟨[(("a", 1), ⟨false, 0⟩), (("b", 2), ⟨false, 0⟩), (("c", 3), ⟨false, 0⟩)],
    [("a", 1), ("b", 2), ("c", 3)], [], [], [], []⟩ 7 (("b", 2))
    (by decide) (by decide) (by decide) (by decide)

end MiniCI
